import Mathlib

/-!
Verification of the go-ipam durable-store layer: a shallow embedding of

* the Raft replicated state machine `ipamStateMachine`
  (`pkg/store/raft_statemachine.go`, given as `src/unnamed/part_000`),
* the Pebble-backed store `PebbleStore` (`src/pkg/store/pebble.go`),
* the Raft store wrappers `RaftStore` (`src/pkg/store/raft.go`),

together with proofs and refutations of the frozen specification claims
about these components.

Modelling conventions, fixed once here:

* Go strings are Lean `String`s; Go `time.Time` values are their
  `UnixNano` integers (`Int`), which is all the store code reads of them.
* Go maps are modelled as association lists (`Kv`) with insertion-ordered
  keys: `set` replaces in place or appends, `del` filters, lookups are
  key-equality scans.  Go leaves map iteration order unspecified; the
  claims below inspect iteration order only up to permutation, except for
  the Pebble audit column, which is modelled in faithful key-sorted order
  (`setSorted`), matching Pebble's lexicographic byte-order iteration.
* `gob`/JSON serialisation is assumed to round-trip records exactly, so
  encoded commands, queries and stored values are modelled by the decoded
  records themselves.
* Consensus transport failures (timeout, no leader) and disk I/O failures
  are outside the model: a submitted command is applied exactly once, as
  the consensus driver guarantees for committed commands.
-/

/-- Modelled from the spec: `ipam.Network` lives in `pkg/ipam`, which is
not part of the given sources; its fields are taken from spec section 3
("Network") and from the literals used by the store tests. -/
structure Network where
  ID : String
  CIDR : String
  Description : String
  Tags : List String
  CreatedAt : Int
  UpdatedAt : Int
deriving DecidableEq, Repr

/-- Modelled from the spec: `ipam.IPAllocation` lives in `pkg/ipam`, which
is not part of the given sources; its fields are taken from spec section 3
("Allocation") and from the literals used by the store tests. -/
structure IPAllocation where
  ID : String
  NetworkID : String
  IP : String
  EndIP : Option String
  Status : String
  Hostname : String
  Description : String
  Tags : List String
  AllocatedAt : Int
  ExpiresAt : Option Int
  ReleasedAt : Option Int
deriving DecidableEq, Repr

/-- Modelled from the spec: `ipam.AuditEntry` lives in `pkg/ipam`, which is
not part of the given sources; its fields are taken from spec section 3
("Audit entry") and from the literals used by the store tests. -/
structure AuditEntry where
  ID : String
  Timestamp : Int
  Action : String
  Resource : String
  Details : String
  User : String
deriving DecidableEq, Repr

/-- Modelled from the spec: the store error kinds of spec section 7.
`ipam.ErrNetworkNotFound` and `ipam.ErrIPNotAllocated` are referenced
throughout `pkg/store`; their declarations live in the missing `pkg/ipam`. -/
inductive StoreErr where
  | networkNotFound
  | ipNotAllocated
  | internal
deriving DecidableEq, Repr

/-- Association-list finite map with `String` keys, the model of both Go
maps and the typed columns of the Pebble keyspace. -/
abbrev Kv (α : Type) : Type := List (String × α)

namespace Kv

/-- Go map read `m[k]` (as `v, ok := m[k]` with `ok = isSome`): first
entry with the key, if any. -/
def get? : Kv α → String → Option α
  | [], _ => none
  | p :: rest, k => if p.1 == k then some p.2 else get? rest k

/-- Go map assignment `m[k] = v`: replace the entry in place if the key
is present, else append a fresh entry. -/
def set : Kv α → String → α → Kv α
  | [], k, v => [(k, v)]
  | p :: rest, k, v => if p.1 == k then (k, v) :: rest else p :: set rest k v

/-- Go map `delete(m, k)` and Pebble `batch.Delete`: drop the entries
with the key. -/
def del : Kv α → String → Kv α
  | [], _ => []
  | p :: rest, k => if p.1 == k then del rest k else p :: del rest k

/-- The stored values, in the map's iteration order. -/
def values (l : Kv α) : List α :=
  l.map (fun p => p.2)

/-- The stored keys, in the map's iteration order. -/
def keys (l : Kv α) : List String :=
  l.map (fun p => p.1)

end Kv

/-- Lexicographic strict order on character lists, the model of Pebble's
byte-order key comparison (keys here are ASCII, where byte order and
codepoint order agree). -/
def charsLt : List Char → List Char → Bool
  | _, [] => false
  | [], _ :: _ => true
  | a :: as, b :: bs => if a < b then true else if b < a then false else charsLt as bs

/-- Pebble's key comparison on the modelled string keys. -/
def strLt (s t : String) : Bool := charsLt s.data t.data

namespace Kv

/-- Pebble `db.Set` on an ordered keyspace: insert at the key's sorted
position, replacing an existing entry with the same key. -/
def setSorted (l : Kv α) (k : String) (v : α) : Kv α :=
  match l with
  | [] => [(k, v)]
  | p :: rest =>
    if p.1 == k then (k, v) :: rest
    else if strLt k p.1 then (k, v) :: p :: rest
    else p :: setSorted rest k v

end Kv

/-- The `"%s:%s"` composite key of `allocationByIP` (raft state machine)
and the `index:ip:{networkID}:{ip}` Pebble key. -/
def ipKey (networkID ip : String) : String :=
  networkID ++ ":" ++ ip

/-- The Pebble audit key `audit:{ts_nanos}_{id}`, minus the constant
column prefix: `fmt.Sprintf("%d_%s", entry.Timestamp.UnixNano(), entry.ID)`. -/
def auditKey (e : AuditEntry) : String :=
  toString e.Timestamp ++ "_" ++ e.ID

/-! ## The replicated state machine (`ipamStateMachine`) -/

/-- The decoded command stream of the state machine: one constructor per
`commandType` tag byte, carrying the gob-decoded payload. -/
inductive Cmd where
  | saveNetwork (n : Network)
  | deleteNetwork (id : String)
  | saveAllocation (a : IPAllocation)
  | deleteAllocation (id : String)
  | saveAudit (e : AuditEntry)
deriving DecidableEq, Repr

/-- The decoded query stream: one constructor per `queryType` tag byte. -/
inductive Query where
  | getNetwork (id : String)
  | getNetworkByCIDR (cidr : String)
  | listNetworks
  | getAllocation (id : String)
  | getAllocationByIP (networkID ip : String)
  | listAllocations (networkID : String)
  | listAudit (limit : Int)
deriving DecidableEq, Repr

/-- State of `ipamStateMachine`: the three entity collections plus the
three derived indexes, and the replica identity fields. -/
structure RSMState where
  clusterID : Nat
  nodeID : Nat
  networks : Kv Network
  allocations : Kv IPAllocation
  audit : List AuditEntry
  networkByCIDR : Kv String
  allocationByIP : Kv String
  allocationsByNet : Kv (List String)
deriving DecidableEq, Repr

/-- `newIPAMStateMachine`: all collections empty. -/
def newIPAMStateMachine (clusterID nodeID : Nat) : RSMState :=
  { clusterID := clusterID
    nodeID := nodeID
    networks := []
    allocations := []
    audit := []
    networkByCIDR := []
    allocationByIP := []
    allocationsByNet := [] }

/-- The allocation-cascade loop of `applyEntry`'s `cmdDeleteNetwork` case:
for each listed allocation id, if the allocation is still present, delete
it and its `allocationByIP` entry. -/
def cascadeDel : List String → Kv IPAllocation → Kv String → Kv IPAllocation × Kv String
  | [], allocs, ipIdx => (allocs, ipIdx)
  | aid :: rest, allocs, ipIdx =>
    match allocs.get? aid with
    | none => cascadeDel rest allocs ipIdx
    | some al => cascadeDel rest (allocs.del aid) (ipIdx.del (ipKey al.NetworkID al.IP))

/-- The audit truncation of `applyEntry`'s `cmdSaveAudit` case: keep only
the last 10000 entries. -/
def truncAudit (l : List AuditEntry) : List AuditEntry :=
  if l.length > 10000 then l.drop (l.length - 10000) else l

/-- `ipamStateMachine.applyEntry`, one case per command tag.  Decoding is
already done (commands arrive decoded in this model), so the decode-error
branches do not arise. -/
def applyEntry (c : Cmd) (s : RSMState) : RSMState :=
  match c with
  | .saveNetwork n =>
    { s with
      networks := s.networks.set n.ID n
      networkByCIDR := s.networkByCIDR.set n.CIDR n.ID }
  | .deleteNetwork id =>
    match s.networks.get? id with
    | none => s
    | some nw =>
      let allocIDs := (s.allocationsByNet.get? id).getD []
      let pr := cascadeDel allocIDs s.allocations s.allocationByIP
      { s with
        networks := s.networks.del id
        networkByCIDR := s.networkByCIDR.del nw.CIDR
        allocations := pr.1
        allocationByIP := pr.2
        allocationsByNet := s.allocationsByNet.del id }
  | .saveAllocation a =>
    let lst := (s.allocationsByNet.get? a.NetworkID).getD []
    { s with
      allocations := s.allocations.set a.ID a
      allocationByIP := s.allocationByIP.set (ipKey a.NetworkID a.IP) a.ID
      allocationsByNet :=
        s.allocationsByNet.set a.NetworkID
          (if lst.contains a.ID then lst else lst ++ [a.ID]) }
  | .deleteAllocation id =>
    match s.allocations.get? id with
    | none => s
    | some al =>
      let withoutRec :=
        { s with
          allocations := s.allocations.del id
          allocationByIP := s.allocationByIP.del (ipKey al.NetworkID al.IP) }
      match s.allocationsByNet.get? al.NetworkID with
      | none => withoutRec
      | some lst =>
        { withoutRec with
          allocationsByNet :=
            s.allocationsByNet.set al.NetworkID (lst.filter (fun x => !(x == id))) }
  | .saveAudit e =>
    { s with audit := truncAudit (s.audit ++ [e]) }

/-- Total application of a command log, oldest first. -/
def applyAll (cmds : List Cmd) (s : RSMState) : RSMState :=
  match cmds with
  | [] => s
  | c :: rest => applyAll rest (applyEntry c s)

/-- A Go `interface{}` value returned by `ipamStateMachine.Lookup`.  The
`nilIface` constructor is the untyped `nil` literal; `network none` and
`allocation none` are typed nil pointers (`(*ipam.Network)(nil)` inside a
non-nil interface), which Go distinguishes from untyped `nil`. -/
inductive LookupResult where
  | nilIface
  | network (n : Option Network)
  | networkList (l : List Network)
  | allocation (a : Option IPAllocation)
  | allocationList (l : List IPAllocation)
  | auditList (l : List AuditEntry)
deriving DecidableEq, Repr

/-- `ipamStateMachine.Lookup`, one case per query tag.  The audit case
mirrors the source loop `for i := len-1; i >= start && i >= 0; i--` where
`start = len(audit) - limit` unless negative or `limit <= 0`, in which
case `start = 0`: for `limit >= 1` that collects the last
`min(limit, len)` entries in reverse; for `limit <= 0` it collects all. -/
def Lookup (q : Query) (s : RSMState) : LookupResult :=
  match q with
  | .getNetwork id => .network (s.networks.get? id)
  | .getNetworkByCIDR cidr =>
    match s.networkByCIDR.get? cidr with
    | some id => .network (s.networks.get? id)
    | none => .nilIface
  | .listNetworks => .networkList s.networks.values
  | .getAllocation id => .allocation (s.allocations.get? id)
  | .getAllocationByIP networkID ip =>
    match s.allocationByIP.get? (ipKey networkID ip) with
    | some id => .allocation (s.allocations.get? id)
    | none => .nilIface
  | .listAllocations networkID =>
    .allocationList
      (((s.allocationsByNet.get? networkID).getD []).filterMap s.allocations.get?)
  | .listAudit limit =>
    .auditList
      (if limit ≤ 0 then s.audit.reverse
       else (s.audit.drop (s.audit.length - limit.toNat)).reverse)

/-- `snapshotData`: the serialized snapshot artifact (the three entity
collections; indexes are never persisted). -/
structure SnapshotData where
  Networks : Kv Network
  Allocations : Kv IPAllocation
  Audit : List AuditEntry
deriving DecidableEq, Repr

/-- `ipamStateMachine.SaveSnapshot` (modulo gob encoding). -/
def SaveSnapshot (s : RSMState) : SnapshotData :=
  { Networks := s.networks
    Allocations := s.allocations
    Audit := s.audit }

/-- The `networkByCIDR` rebuild loop of `rebuildIndexes`. -/
def rebuildNetworkByCIDR (networks : Kv Network) : Kv String :=
  networks.foldl (fun idx p => idx.set p.2.CIDR p.1) []

/-- The allocation-index rebuild loop of `rebuildIndexes`: one pass over
the allocations map filling both `allocationByIP` and `allocationsByNet`
(the latter by unconditional append). -/
def rebuildAllocIdx (allocations : Kv IPAllocation) : Kv String × Kv (List String) :=
  allocations.foldl
    (fun pr p =>
      (pr.1.set (ipKey p.2.NetworkID p.2.IP) p.1,
       pr.2.set p.2.NetworkID (((pr.2.get? p.2.NetworkID).getD []) ++ [p.1])))
    ([], [])

/-- `ipamStateMachine.rebuildIndexes` applied to a state. -/
def rebuildIndexes (s : RSMState) : RSMState :=
  { s with
    networkByCIDR := rebuildNetworkByCIDR s.networks
    allocationByIP := (rebuildAllocIdx s.allocations).1
    allocationsByNet := (rebuildAllocIdx s.allocations).2 }

/-- `ipamStateMachine.RecoverFromSnapshot` (modulo gob decoding): restore
the three collections onto the receiving machine, then rebuild indexes. -/
def RecoverFromSnapshot (snap : SnapshotData) (s : RSMState) : RSMState :=
  rebuildIndexes
    { s with
      networks := snap.Networks
      allocations := snap.Allocations
      audit := snap.Audit }

/-! ## The Pebble-backed store (`PebbleStore`)

The Pebble database is a single lexicographically ordered keyspace
partitioned by the constant prefixes `network:`, `allocation:`,
`audit:` and `index:` (the latter split into `index:cidr:` and
`index:ip:`).  All operations read and write within one partition, so the
keyspace is modelled as five typed columns keyed by the variable part of
the key.  Stored values are JSON-encoded records, modelled by the records
themselves.  Iteration order of the audit column (whose order the code
exposes) is modelled faithfully via `Kv.setSorted`; the remaining columns
are only ever iterated where the claims compare results up to
permutation, and use the same insertion-ordered `Kv.set`. -/

structure PebbleState where
  networks : Kv Network
  allocations : Kv IPAllocation
  cidrIdx : Kv String
  ipIdx : Kv String
  audit : Kv AuditEntry
deriving DecidableEq, Repr

/-- A freshly opened Pebble store: empty keyspace. -/
def emptyPebble : PebbleState :=
  { networks := [], allocations := [], cidrIdx := [], ipIdx := [], audit := [] }

namespace PebbleStore

/-- `PebbleStore.SaveNetwork`: one batch setting `network:{id}` and
`index:cidr:{cidr}`. -/
def SaveNetwork (n : Network) (s : PebbleState) : Except StoreErr PebbleState :=
  .ok { s with
        networks := s.networks.set n.ID n
        cidrIdx := s.cidrIdx.set n.CIDR n.ID }

/-- `PebbleStore.GetNetwork`: point read of `network:{id}`,
`pebble.ErrNotFound` becoming `ipam.ErrNetworkNotFound`. -/
def GetNetwork (id : String) (s : PebbleState) : Except StoreErr Network :=
  match s.networks.get? id with
  | none => .error .networkNotFound
  | some n => .ok n

/-- `PebbleStore.GetNetworkByCIDR`: read the CIDR index, then the record. -/
def GetNetworkByCIDR (cidr : String) (s : PebbleState) : Except StoreErr Network :=
  match s.cidrIdx.get? cidr with
  | none => .error .networkNotFound
  | some id => GetNetwork id s

/-- `PebbleStore.ListNetworks`: prefix scan of `network:`. -/
def ListNetworks (s : PebbleState) : List Network :=
  s.networks.values

/-- `PebbleStore.DeleteNetwork`: fails if the network is absent (the
initial `GetNetwork` errors); otherwise one batch deleting the record, its
CIDR index entry, every allocation record whose `NetworkID` matches, and
each such record's current `index:ip` entry.  The scan iterates the
pre-batch state, as the Pebble iterator does. -/
def DeleteNetwork (id : String) (s : PebbleState) : Except StoreErr PebbleState :=
  match GetNetwork id s with
  | .error e => .error e
  | .ok nw =>
    let owned := s.allocations.filter (fun p => p.2.NetworkID == id)
    .ok { s with
          networks := s.networks.del id
          cidrIdx := s.cidrIdx.del nw.CIDR
          allocations := s.allocations.filter (fun p => !(p.2.NetworkID == id))
          ipIdx := owned.foldl (fun idx p => idx.del (ipKey p.2.NetworkID p.2.IP)) s.ipIdx }

/-- `PebbleStore.SaveAllocation`: one batch setting `allocation:{id}` and
`index:ip:{networkID}:{ip}`. -/
def SaveAllocation (a : IPAllocation) (s : PebbleState) : Except StoreErr PebbleState :=
  .ok { s with
        allocations := s.allocations.set a.ID a
        ipIdx := s.ipIdx.set (ipKey a.NetworkID a.IP) a.ID }

/-- `PebbleStore.GetAllocation`: point read, `pebble.ErrNotFound`
becoming `ipam.ErrIPNotAllocated`. -/
def GetAllocation (id : String) (s : PebbleState) : Except StoreErr IPAllocation :=
  match s.allocations.get? id with
  | none => .error .ipNotAllocated
  | some a => .ok a

/-- `PebbleStore.GetAllocationByIP`: read the IP index, then the record. -/
def GetAllocationByIP (networkID ip : String) (s : PebbleState) :
    Except StoreErr IPAllocation :=
  match s.ipIdx.get? (ipKey networkID ip) with
  | none => .error .ipNotAllocated
  | some id => GetAllocation id s

/-- `PebbleStore.ListAllocations`: scan all allocation records, keeping
those with the requested `NetworkID`. -/
def ListAllocations (networkID : String) (s : PebbleState) : List IPAllocation :=
  (s.allocations.filter (fun p => p.2.NetworkID == networkID)).map (fun p => p.2)

/-- `PebbleStore.DeleteAllocation`: fails if absent; otherwise one batch
deleting the record and its current `index:ip` entry. -/
def DeleteAllocation (id : String) (s : PebbleState) : Except StoreErr PebbleState :=
  match GetAllocation id s with
  | .error e => .error e
  | .ok al =>
    .ok { s with
          allocations := s.allocations.del id
          ipIdx := s.ipIdx.del (ipKey al.NetworkID al.IP) }

/-- `PebbleStore.SaveAuditEntry`: a single `db.Set` at the
timestamp-prefixed key; no truncation of any kind. -/
def SaveAuditEntry (e : AuditEntry) (s : PebbleState) : Except StoreErr PebbleState :=
  .ok { s with audit := s.audit.setSorted (auditKey e) e }

/-- `PebbleStore.ListAuditEntries`: collect all entries in key order,
then return the last `limit` of them in reverse (the source loop
`for i := len-1; i >= start; i--` with `start = len - limit` clamped at 0
collects nothing when `limit <= 0`). -/
def ListAuditEntries (limit : Int) (s : PebbleState) : List AuditEntry :=
  let allEntries := s.audit.values
  if limit ≤ 0 then []
  else (allEntries.drop (allEntries.length - limit.toNat)).reverse

end PebbleStore

/-! ## The Raft store wrappers (`RaftStore`)

`RaftStore` submits commands through `SyncPropose` (modelled as direct
application of the decoded command — exactly-once apply of a committed
command) and queries through `SyncRead`, which hands the query to
`ipamStateMachine.Lookup` and returns its `interface{}` result.

The wrappers test that result against untyped `nil` (`if result == nil`).
When `Lookup` evaluated `s.networks[q.ID]` on an absent key it returned a
typed nil pointer, which fails that test, so the wrapper's type assertion
yields a nil record with a nil error: the `Except.ok none` outcomes
below.  The catch-all `.error .internal` arms model the type-assertion
panic on a result shape `Lookup` never actually produces for the given
query tag; they are unreachable. -/

namespace RaftStore

def SaveNetwork (n : Network) (s : RSMState) : Except StoreErr RSMState :=
  .ok (applyEntry (.saveNetwork n) s)

def GetNetwork (id : String) (s : RSMState) : Except StoreErr (Option Network) :=
  match Lookup (.getNetwork id) s with
  | .nilIface => .error .networkNotFound
  | .network o => .ok o
  | _ => .error .internal

def GetNetworkByCIDR (cidr : String) (s : RSMState) : Except StoreErr (Option Network) :=
  match Lookup (.getNetworkByCIDR cidr) s with
  | .nilIface => .error .networkNotFound
  | .network o => .ok o
  | _ => .error .internal

def ListNetworks (s : RSMState) : Except StoreErr (List Network) :=
  match Lookup .listNetworks s with
  | .networkList l => .ok l
  | _ => .error .internal

def DeleteNetwork (id : String) (s : RSMState) : Except StoreErr RSMState :=
  .ok (applyEntry (.deleteNetwork id) s)

def SaveAllocation (a : IPAllocation) (s : RSMState) : Except StoreErr RSMState :=
  .ok (applyEntry (.saveAllocation a) s)

def GetAllocation (id : String) (s : RSMState) : Except StoreErr (Option IPAllocation) :=
  match Lookup (.getAllocation id) s with
  | .nilIface => .error .ipNotAllocated
  | .allocation o => .ok o
  | _ => .error .internal

def GetAllocationByIP (networkID ip : String) (s : RSMState) :
    Except StoreErr (Option IPAllocation) :=
  match Lookup (.getAllocationByIP networkID ip) s with
  | .nilIface => .error .ipNotAllocated
  | .allocation o => .ok o
  | _ => .error .internal

def ListAllocations (networkID : String) (s : RSMState) :
    Except StoreErr (List IPAllocation) :=
  match Lookup (.listAllocations networkID) s with
  | .allocationList l => .ok l
  | _ => .error .internal

def DeleteAllocation (id : String) (s : RSMState) : Except StoreErr RSMState :=
  .ok (applyEntry (.deleteAllocation id) s)

def SaveAuditEntry (e : AuditEntry) (s : RSMState) : Except StoreErr RSMState :=
  .ok (applyEntry (.saveAudit e) s)

def ListAuditEntries (limit : Int) (s : RSMState) : Except StoreErr (List AuditEntry) :=
  match Lookup (.listAudit limit) s with
  | .auditList l => .ok l
  | _ => .error .internal

end RaftStore

/-! ## Auxiliary definitions for the claim statements -/

/-- Overwrite only the replica identity fields of a state. -/
def setIds (clusterID nodeID : Nat) (s : RSMState) : RSMState :=
  { s with clusterID := clusterID, nodeID := nodeID }

/-- The audit entries carried by a command log, in log order. -/
def auditsOf : List Cmd → List AuditEntry
  | [] => []
  | .saveAudit e :: rest => e :: auditsOf rest
  | .saveNetwork _ :: rest => auditsOf rest
  | .deleteNetwork _ :: rest => auditsOf rest
  | .saveAllocation _ :: rest => auditsOf rest
  | .deleteAllocation _ :: rest => auditsOf rest

/-- Append a sequence of audit entries through `PebbleStore.SaveAuditEntry`
(which never fails). -/
def pebbleAppendAll : List AuditEntry → PebbleState → PebbleState
  | [], s => s
  | e :: rest, s =>
    match PebbleStore.SaveAuditEntry e s with
    | .ok s' => pebbleAppendAll rest s'
    | .error _ => s

/-- Key distinctness of an association list. -/
def Kv.NodupKeys (l : Kv α) : Prop := l.keys.Nodup

/-- An audit id of length `i + 1` (used to build many entries with
pairwise distinct Pebble audit keys). -/
def unaryID (i : Nat) : String := String.mk (List.replicate (i + 1) 'x')

/-- The `i`-th of a family of audit entries with pairwise distinct keys. -/
def mkAudit (i : Nat) : AuditEntry :=
  { ID := unaryID i, Timestamp := 0, Action := "act", Resource := "res"
    Details := "", User := "u" }

/-- 10001 audit entries with pairwise distinct Pebble keys. -/
def manyAudits : List AuditEntry := (List.range 10001).map mkAudit

/-- A network literal used by concrete counterexamples. -/
def exNet : Network :=
  { ID := "net1", CIDR := "10.0.0.0/24", Description := "d", Tags := []
    CreatedAt := 0, UpdatedAt := 0 }

/-- `exNet` re-saved under the same id with a different CIDR. -/
def exNetRecidr : Network := { exNet with CIDR := "10.1.0.0/24" }

/-- A state whose `networkByCIDR` index holds a stale entry: the network
`net1` was saved with one CIDR and then re-saved with another. -/
def staleCidrState : RSMState :=
  applyEntry (.saveNetwork exNetRecidr)
    (applyEntry (.saveNetwork exNet) (newIPAMStateMachine 1 1))

/-- An allocation literal used by concrete counterexamples. -/
def exAlloc : IPAllocation :=
  { ID := "alloc1", NetworkID := "net1", IP := "10.0.0.1", EndIP := none
    Status := "allocated", Hostname := "h", Description := "", Tags := []
    AllocatedAt := 0, ExpiresAt := none, ReleasedAt := none }

/-- `exAlloc` re-saved under the same id with a different IP. -/
def exAllocReip : IPAllocation := { exAlloc with IP := "10.0.0.2" }

/-- Two audit entries whose timestamps increase (9 then 10) while their
decimal renderings decrease lexicographically ("10_b" < "9_a"). -/
def digitAudit1 : AuditEntry :=
  { ID := "a", Timestamp := 9, Action := "act", Resource := "r", Details := "", User := "u" }

/-- Companion of `digitAudit1`, appended second with the larger timestamp. -/
def digitAudit2 : AuditEntry :=
  { ID := "b", Timestamp := 10, Action := "act", Resource := "r", Details := "", User := "u" }

/-- A concrete state with index-consistent contents (used as roundtrip
witness input): one saved network on replica (2, 5). -/
def c3WitState : RSMState :=
  applyEntry (.saveNetwork exNet) (newIPAMStateMachine 2 5)

/-- An audit entry whose key "1_a" sorts before `incAudit2`'s key. -/
def incAudit1 : AuditEntry :=
  { ID := "a", Timestamp := 1, Action := "act", Resource := "r", Details := "", User := "u" }

/-- An audit entry whose key "2_b" sorts after `incAudit1`'s key. -/
def incAudit2 : AuditEntry :=
  { ID := "b", Timestamp := 2, Action := "act", Resource := "r", Details := "", User := "u" }

/-- A trace of network save/delete operations, the operations C7
quantifies over. -/
inductive NetOp where
  | save (n : Network)
  | delete (id : String)
deriving DecidableEq, Repr

/-- The RSM command corresponding to a network operation. -/
def netCmd : NetOp → Cmd
  | .save n => .saveNetwork n
  | .delete id => .deleteNetwork id

/-- Run a network-operation trace against the RSM. -/
def rsmNetRun : List NetOp → RSMState → RSMState
  | [], s => s
  | op :: rest, s => rsmNetRun rest (applyEntry (netCmd op) s)

/-- One network operation against the Pebble store; a failed delete (the
id was absent) leaves the state unchanged, as the erroring Go call does. -/
def pebbleNetStep (op : NetOp) (s : PebbleState) : PebbleState :=
  match op with
  | .save n =>
    match PebbleStore.SaveNetwork n s with
    | .ok s' => s'
    | .error _ => s
  | .delete id =>
    match PebbleStore.DeleteNetwork id s with
    | .ok s' => s'
    | .error _ => s

/-- Run a network-operation trace against the Pebble store. -/
def pebbleNetRun : List NetOp → PebbleState → PebbleState
  | [], s => s
  | op :: rest, s => pebbleNetRun rest (pebbleNetStep op s)

/-- C7's precondition on one operation: a re-save keeps the network's
CIDR, and a save never carries the canonical CIDR of a different stored
network. -/
def netOpOk (networks : Kv Network) : NetOp → Bool
  | .save n =>
    (match Kv.get? networks n.ID with
     | some old => old.CIDR == n.CIDR
     | none => true) &&
    networks.all (fun p => !(p.2.CIDR == n.CIDR) || (p.1 == n.ID))
  | .delete _ => true

/-- C7's precondition along a whole trace, checked against the evolving
network map. -/
def netSeqOk : RSMState → List NetOp → Bool
  | _, [] => true
  | s, op :: rest => netOpOk s.networks op && netSeqOk (applyEntry (netCmd op) s) rest

/-- The CIDR-index bijection invariant: records carry their key as `ID`,
every stored network is indexed under its CIDR, and every index entry
points back to a stored network with that CIDR. -/
def cidrInv (networks : Kv Network) (cidrIdx : Kv String) : Prop :=
  Kv.NodupKeys networks ∧ Kv.NodupKeys cidrIdx ∧
  (∀ p ∈ networks, p.2.ID = p.1 ∧ Kv.get? cidrIdx p.2.CIDR = some p.1) ∧
  (∀ q ∈ cidrIdx, ∃ n, Kv.get? networks q.2 = some n ∧ n.CIDR = q.1)

/-- The allocation-list invariant of reachable RSM states: allocation
keys are unique, records carry their key as `ID`, each per-network id
list is duplicate-free, and every stored allocation is listed under its
owning network. -/
def allocListInv (s : RSMState) : Prop :=
  Kv.NodupKeys s.allocations ∧
  (∀ p ∈ s.allocations, p.2.ID = p.1) ∧
  (∀ q ∈ s.allocationsByNet, q.2.Nodup) ∧
  (∀ p ∈ s.allocations, p.1 ∈ (Kv.get? s.allocationsByNet p.2.NetworkID).getD [])

/-! ## A common operation surface over both backends -/

/-- One store-contract operation (the surface shared by both backends). -/
inductive Op where
  | saveNetwork (n : Network)
  | getNetwork (id : String)
  | getNetworkByCIDR (cidr : String)
  | listNetworks
  | deleteNetwork (id : String)
  | saveAllocation (a : IPAllocation)
  | getAllocation (id : String)
  | getAllocationByIP (networkID ip : String)
  | listAllocations (networkID : String)
  | deleteAllocation (id : String)
  | saveAudit (e : AuditEntry)
  | listAudit (limit : Int)
deriving DecidableEq, Repr

/-- The observable outcome of one operation.  `network none` is the Go
pair `(nil, nil)` — a nil record with a nil error. -/
inductive OpResult where
  | ok
  | network (n : Option Network)
  | networks (l : List Network)
  | allocation (a : Option IPAllocation)
  | allocations (l : List IPAllocation)
  | audits (l : List AuditEntry)
  | err (e : StoreErr)
deriving DecidableEq, Repr

/-- Execute one operation on the Pebble store (an erroring call leaves
the database untouched: the batch is never committed). -/
def pebbleOp (s : PebbleState) : Op → OpResult × PebbleState
  | .saveNetwork n =>
    match PebbleStore.SaveNetwork n s with
    | .ok s' => (.ok, s')
    | .error e => (.err e, s)
  | .getNetwork id =>
    match PebbleStore.GetNetwork id s with
    | .ok n => (.network (some n), s)
    | .error e => (.err e, s)
  | .getNetworkByCIDR c =>
    match PebbleStore.GetNetworkByCIDR c s with
    | .ok n => (.network (some n), s)
    | .error e => (.err e, s)
  | .listNetworks => (.networks (PebbleStore.ListNetworks s), s)
  | .deleteNetwork id =>
    match PebbleStore.DeleteNetwork id s with
    | .ok s' => (.ok, s')
    | .error e => (.err e, s)
  | .saveAllocation a =>
    match PebbleStore.SaveAllocation a s with
    | .ok s' => (.ok, s')
    | .error e => (.err e, s)
  | .getAllocation id =>
    match PebbleStore.GetAllocation id s with
    | .ok a => (.allocation (some a), s)
    | .error e => (.err e, s)
  | .getAllocationByIP net ip =>
    match PebbleStore.GetAllocationByIP net ip s with
    | .ok a => (.allocation (some a), s)
    | .error e => (.err e, s)
  | .listAllocations net => (.allocations (PebbleStore.ListAllocations net s), s)
  | .deleteAllocation id =>
    match PebbleStore.DeleteAllocation id s with
    | .ok s' => (.ok, s')
    | .error e => (.err e, s)
  | .saveAudit e =>
    match PebbleStore.SaveAuditEntry e s with
    | .ok s' => (.ok, s')
    | .error er => (.err er, s)
  | .listAudit k => (.audits (PebbleStore.ListAuditEntries k s), s)

/-- Execute one operation on the Raft store (submission applies the
command exactly once; a read consults `Lookup`).  The `network o` /
`allocation o` outcomes carry the possibly-nil record the wrapper
returned. -/
def raftOp (s : RSMState) : Op → OpResult × RSMState
  | .saveNetwork n =>
    match RaftStore.SaveNetwork n s with
    | .ok s' => (.ok, s')
    | .error e => (.err e, s)
  | .getNetwork id =>
    match RaftStore.GetNetwork id s with
    | .ok o => (.network o, s)
    | .error e => (.err e, s)
  | .getNetworkByCIDR c =>
    match RaftStore.GetNetworkByCIDR c s with
    | .ok o => (.network o, s)
    | .error e => (.err e, s)
  | .listNetworks =>
    match RaftStore.ListNetworks s with
    | .ok l => (.networks l, s)
    | .error e => (.err e, s)
  | .deleteNetwork id =>
    match RaftStore.DeleteNetwork id s with
    | .ok s' => (.ok, s')
    | .error e => (.err e, s)
  | .saveAllocation a =>
    match RaftStore.SaveAllocation a s with
    | .ok s' => (.ok, s')
    | .error e => (.err e, s)
  | .getAllocation id =>
    match RaftStore.GetAllocation id s with
    | .ok o => (.allocation o, s)
    | .error e => (.err e, s)
  | .getAllocationByIP net ip =>
    match RaftStore.GetAllocationByIP net ip s with
    | .ok o => (.allocation o, s)
    | .error e => (.err e, s)
  | .listAllocations net =>
    match RaftStore.ListAllocations net s with
    | .ok l => (.allocations l, s)
    | .error e => (.err e, s)
  | .deleteAllocation id =>
    match RaftStore.DeleteAllocation id s with
    | .ok s' => (.ok, s')
    | .error e => (.err e, s)
  | .saveAudit e =>
    match RaftStore.SaveAuditEntry e s with
    | .ok s' => (.ok, s')
    | .error er => (.err er, s)
  | .listAudit k =>
    match RaftStore.ListAuditEntries k s with
    | .ok l => (.audits l, s)
    | .error e => (.err e, s)

/-- Run an operation sequence on the Pebble store, collecting results. -/
def pebbleRun : PebbleState → List Op → List OpResult × PebbleState
  | s, [] => ([], s)
  | s, op :: rest =>
    let r := pebbleOp s op
    let rr := pebbleRun r.2 rest
    (r.1 :: rr.1, rr.2)

/-- Run an operation sequence on the Raft store, collecting results. -/
def raftRun : RSMState → List Op → List OpResult × RSMState
  | s, [] => ([], s)
  | s, op :: rest =>
    let r := raftOp s op
    let rr := raftRun r.2 rest
    (r.1 :: rr.1, rr.2)

/-! ## IP-index consistency (C4) -/

/-- Decidable check that every `allocationByIP` entry of an RSM state
points to a live allocation whose current network and IP spell the
entry's key, and that the allocation is listed under its network. -/
def ipIdxConsistentR (S : RSMState) : Bool :=
  S.allocationByIP.all (fun q =>
    match Kv.get? S.allocations q.2 with
    | some al => (q.1 == ipKey al.NetworkID al.IP) &&
        ((Kv.get? S.allocationsByNet al.NetworkID).getD []).contains q.2
    | none => false)

/-- Decidable check that every `index:ip` entry of a Pebble state points
to a live allocation whose current network and IP spell the entry's key. -/
def ipIdxConsistentP (P : PebbleState) : Bool :=
  P.ipIdx.all (fun q =>
    match Kv.get? P.allocations q.2 with
    | some al => q.1 == ipKey al.NetworkID al.IP
    | none => false)

/-- Decidable check that a string has no ':' (composite `network:ip` keys
are unambiguous only for colon-free network ids). -/
def colonFree (s : String) : Bool := !(s.data.contains ':')

/-- The C4 counterexample trace: re-saving `alloc1` with a changed IP
leaves a stale `index:ip` entry that the network cascade never removes. -/
def c4Trace : List Op :=
  [.saveNetwork exNet, .saveAllocation exAlloc, .saveAllocation exAllocReip,
   .deleteNetwork "net1"]

/-- RSM state after the C4 counterexample trace. -/
def c4CexR : RSMState := (raftRun (newIPAMStateMachine 1 1) c4Trace).2

/-- Pebble state after the C4 counterexample trace. -/
def c4CexP : PebbleState := (pebbleRun emptyPebble c4Trace).2

/-! ## Validity and refinement relation (C1) -/

/-- C1's amended validity condition on one operation, judged against the
RSM state: point lookups and deletes target present keys, index-miss
lookups are true misses, a re-saved allocation keeps its NetworkID,
audit appends stay under the 10000 bound with strictly increasing keys,
and audit list limits are positive.  Each conjunct excludes one actual
behavioural divergence between the two backends. -/
def opValid (S : RSMState) : Op → Bool
  | .saveNetwork _ => true
  | .getNetwork id => (Kv.get? S.networks id).isSome
  | .getNetworkByCIDR c =>
    match Kv.get? S.networkByCIDR c with
    | none => true
    | some nid => (Kv.get? S.networks nid).isSome
  | .listNetworks => true
  | .deleteNetwork id => (Kv.get? S.networks id).isSome
  | .saveAllocation a =>
    match Kv.get? S.allocations a.ID with
    | none => true
    | some old => old.NetworkID == a.NetworkID
  | .getAllocation id => (Kv.get? S.allocations id).isSome
  | .getAllocationByIP net ip =>
    match Kv.get? S.allocationByIP (ipKey net ip) with
    | none => true
    | some aid => (Kv.get? S.allocations aid).isSome
  | .listAllocations _ => true
  | .deleteAllocation id => (Kv.get? S.allocations id).isSome
  | .saveAudit e => decide (S.audit.length < 10000) &&
      S.audit.all (fun e0 => strLt (auditKey e0) (auditKey e))
  | .listAudit k => decide (1 ≤ k)

/-- Validity along a whole operation sequence. -/
def seqValid : RSMState → List Op → Bool
  | _, [] => true
  | S, op :: rest => opValid S op && seqValid (raftOp S op).2 rest

/-- The refinement relation between a Pebble state and an RSM state: the
four record/index columns coincide, the Pebble audit column is the RSM
audit list paired with its keys, allocation keys are unique, and each
per-network id list is exactly the keys of that network's records. -/
def StoreRel (P : PebbleState) (S : RSMState) : Prop :=
  P.networks = S.networks ∧
  P.cidrIdx = S.networkByCIDR ∧
  P.allocations = S.allocations ∧
  P.ipIdx = S.allocationByIP ∧
  P.audit = S.audit.map (fun e => (auditKey e, e)) ∧
  Kv.NodupKeys S.allocations ∧
  (∀ net, (Kv.get? S.allocationsByNet net).getD [] =
    (S.allocations.filter (fun p => p.2.NetworkID == net)).map (fun p => p.1))

/-- Result agreement: list-valued results agree as multisets, all other
results are identical. -/
def resRel (r1 r2 : OpResult) : Prop :=
  match r1, r2 with
  | .networks l1, .networks l2 => l1.Perm l2
  | .allocations l1, .allocations l2 => l1.Perm l2
  | a, b => a = b

/-- The operation sequence used as the C1 witness: one operation of each
kind, all valid. -/
def c1WitOps : List Op :=
  [.saveNetwork exNet, .getNetwork "net1", .getNetworkByCIDR exNet.CIDR,
   .getNetworkByCIDR "10.255.0.0/24", .listNetworks, .saveAllocation exAlloc,
   .getAllocation "alloc1", .getAllocationByIP "net1" "10.0.0.1",
   .getAllocationByIP "net1" "10.0.0.99", .listAllocations "net1",
   .saveAudit incAudit1, .saveAudit incAudit2, .listAudit 1,
   .deleteAllocation "alloc1", .deleteNetwork "net1"]

/-! ## Association-list lemmas -/

namespace Kv

theorem get?_set_self (l : Kv α) (k : String) (v : α) :
    get? (set l k v) k = some v := by
  induction l with
  | nil => simp [set, get?]
  | cons p rest ih =>
    by_cases h : p.1 = k
    · simp [set, get?, h]
    · simp [set, get?, h, ih]

theorem get?_set_ne (l : Kv α) {k k' : String} (v : α) (h : k' ≠ k) :
    get? (set l k v) k' = get? l k' := by
  have h' : ¬(k = k') := fun hh => h hh.symm
  induction l with
  | nil => simp [set, get?, h']
  | cons p rest ih =>
    by_cases hp : p.1 = k
    · subst hp
      simp [set, get?, h']
    · simp [set, get?, hp, ih]

theorem get?_del_self (l : Kv α) (k : String) : get? (del l k) k = none := by
  induction l with
  | nil => simp [del, get?]
  | cons p rest ih =>
    by_cases h : p.1 = k
    · simp [del, h, ih]
    · simp [del, get?, h, ih]

theorem get?_del_ne (l : Kv α) {k k' : String} (h : k' ≠ k) :
    get? (del l k) k' = get? l k' := by
  induction l with
  | nil => simp [del]
  | cons p rest ih =>
    have hkk : ¬(k = k') := fun hh => h hh.symm
    by_cases hp : p.1 = k
    · have hp' : ¬(p.1 = k') := by rw [hp]; exact hkk
      simp [del, get?, hp, hp', ih, hkk]
    · simp [del, get?, hp, ih]

theorem mem_of_get? {l : Kv α} {k : String} {v : α}
    (h : get? l k = some v) : (k, v) ∈ l := by
  induction l with
  | nil => simp [get?] at h
  | cons p rest ih =>
    obtain ⟨a, b⟩ := p
    by_cases hp : a = k
    · subst hp
      simp [get?] at h
      subst h
      exact List.mem_cons_self _ _
    · simp [get?, hp] at h
      exact List.mem_cons_of_mem _ (ih h)

theorem keys_cons (p : String × α) (l : Kv α) :
    keys (p :: l : Kv α) = p.1 :: keys l := rfl

theorem keys_set_of_mem {l : Kv α} {k : String} (v : α) (h : k ∈ keys l) :
    keys (set l k v) = keys l := by
  induction l with
  | nil => simp [keys] at h
  | cons p rest ih =>
    by_cases hp : p.1 = k
    · rw [set, if_pos (by simpa using hp), keys_cons, keys_cons, hp]
    · rw [keys_cons] at h
      rcases List.mem_cons.mp h with h1 | h1
      · exact absurd h1.symm hp
      · rw [set, if_neg (by simpa using hp), keys_cons, keys_cons, ih h1]

theorem keys_set_of_not_mem {l : Kv α} {k : String} (v : α) (h : k ∉ keys l) :
    keys (set l k v) = keys l ++ [k] := by
  induction l with
  | nil => simp [set, keys]
  | cons p rest ih =>
    rw [keys_cons] at h
    have h1 : ¬(k = p.1) := fun hh => h (List.mem_cons.mpr (Or.inl hh))
    have h2 : k ∉ keys rest := fun hh => h (List.mem_cons.mpr (Or.inr hh))
    rw [set, if_neg (by simpa using fun hh => h1 hh.symm), keys_cons, keys_cons,
      ih h2, List.cons_append]

theorem mem_keys_set (l : Kv α) (k a : String) (v : α) :
    a ∈ keys (set l k v) ↔ a = k ∨ a ∈ keys l := by
  by_cases hm : k ∈ keys l
  · rw [keys_set_of_mem v hm]
    constructor
    · exact fun h => Or.inr h
    · rintro (rfl | h)
      · exact hm
      · exact h
  · rw [keys_set_of_not_mem v hm]
    simp [List.mem_append, or_comm]

theorem nodupKeys_set {l : Kv α} (hnd : NodupKeys l) (k : String) (v : α) :
    NodupKeys (set l k v) := by
  unfold NodupKeys at hnd ⊢
  by_cases hm : k ∈ keys l
  · rw [keys_set_of_mem v hm]
    exact hnd
  · rw [keys_set_of_not_mem v hm]
    refine List.Nodup.append hnd (List.nodup_singleton k) ?_
    intro a ha hb
    simp only [List.mem_singleton] at hb
    subst hb
    exact hm ha

theorem get?_eq_some_of_mem {l : Kv α} {k : String} {v : α}
    (hnd : NodupKeys l) (h : (k, v) ∈ l) : get? l k = some v := by
  induction l with
  | nil => simp at h
  | cons p rest ih =>
    have h2 : NodupKeys rest := (List.nodup_cons.mp hnd).2
    rcases List.mem_cons.mp h with h1 | h1
    · rw [← h1]
      simp [get?]
    · have hk : k ∈ keys rest := by
        unfold keys
        exact List.mem_map.mpr ⟨(k, v), h1, rfl⟩
      have hne : ¬(p.1 = k) := by
        rintro rfl
        have := (List.nodup_cons.mp hnd).1
        exact this (by simpa [keys] using hk)
      simp [get?, hne, ih h2 h1]

theorem get?_eq_none_iff {l : Kv α} {k : String} :
    get? l k = none ↔ k ∉ keys l := by
  induction l with
  | nil => simp [get?, keys]
  | cons p rest ih =>
    rw [keys_cons]
    by_cases hp : p.1 = k
    · subst hp
      simp [get?]
    · rw [get?, if_neg (by simpa using hp), ih]
      simp only [List.mem_cons, not_or]
      constructor
      · exact fun h => ⟨fun hh => hp hh.symm, h⟩
      · exact fun h => h.2

theorem del_sublist (l : Kv α) (k : String) : List.Sublist (del l k) l := by
  induction l with
  | nil => simp [del]
  | cons p rest ih =>
    by_cases hp : p.1 = k
    · simp only [del, show ((p.1 == k) = true) by simpa using hp, if_pos]
      exact ih.cons p
    · simp only [del, show ((p.1 == k) = false) by simpa using hp, Bool.false_eq_true,
        if_neg, not_false_eq_true]
      exact ih.cons₂ p

theorem nodupKeys_del {l : Kv α} (k : String) (hnd : NodupKeys l) :
    NodupKeys (del l k) :=
  List.Nodup.sublist (List.Sublist.map _ (del_sublist l k)) hnd

theorem mem_of_mem_del {l : Kv α} {k : String} {p : String × α}
    (h : p ∈ del l k) : p ∈ l :=
  (del_sublist l k).subset h

theorem mem_set_elim {l : Kv α} {k : String} {v : α} {p : String × α}
    (h : p ∈ set l k v) : p = (k, v) ∨ p ∈ l := by
  induction l with
  | nil =>
    simp [set] at h
    exact Or.inl h
  | cons q rest ih =>
    by_cases hq : q.1 = k
    · rw [set, if_pos (by simpa using hq)] at h
      rcases List.mem_cons.mp h with h1 | h2
      · exact Or.inl h1
      · exact Or.inr (List.mem_cons_of_mem _ h2)
    · rw [set, if_neg (by simpa using hq)] at h
      rcases List.mem_cons.mp h with h1 | h2
      · exact Or.inr (h1 ▸ List.mem_cons_self _ _)
      · rcases ih h2 with h3 | h4
        · exact Or.inl h3
        · exact Or.inr (List.mem_cons_of_mem _ h4)

end Kv

/-! ## C6: unknown-entity lookups -/

/-- C6 (code bug evaluation): on the Raft-backed store, `GetNetwork` and
`GetAllocation` of an absent id return a nil record with a nil error
instead of the specified not-found kinds: `Lookup` returns a typed-nil
pointer (`s.networks[q.ID]`), which the wrapper's `result == nil` test
does not catch.  The index-miss paths (`GetNetworkByCIDR`,
`GetAllocationByIP`) and all four Pebble lookups do return the specified
error kinds. -/
theorem c6_code_bug_eval :
    RaftStore.GetNetwork "missing" (newIPAMStateMachine 1 1) = .ok none ∧
    RaftStore.GetAllocation "missing" (newIPAMStateMachine 1 1) = .ok none ∧
    RaftStore.GetNetworkByCIDR "10.9.0.0/24" (newIPAMStateMachine 1 1) =
      .error .networkNotFound ∧
    RaftStore.GetAllocationByIP "netX" "10.9.0.1" (newIPAMStateMachine 1 1) =
      .error .ipNotAllocated ∧
    PebbleStore.GetNetwork "missing" emptyPebble = .error .networkNotFound ∧
    PebbleStore.GetNetworkByCIDR "10.9.0.0/24" emptyPebble = .error .networkNotFound ∧
    PebbleStore.GetAllocation "missing" emptyPebble = .error .ipNotAllocated ∧
    PebbleStore.GetAllocationByIP "netX" "10.9.0.1" emptyPebble = .error .ipNotAllocated :=
  ⟨rfl, rfl, rfl, rfl, rfl, rfl, rfl, rfl⟩

/-! ## C5: deletes of absent ids -/

/-- C5 counterexample: on the Pebble-backed store, deleting an absent
network or allocation id does not succeed — it returns the not-found
error kind (the claim asserts both backends succeed without error). -/
theorem c5_counterexample :
    PebbleStore.DeleteNetwork "missing" emptyPebble = .error .networkNotFound ∧
    PebbleStore.DeleteAllocation "missing" emptyPebble = .error .ipNotAllocated ∧
    (Except.error .networkNotFound : Except StoreErr PebbleState) ≠ .ok emptyPebble :=
  ⟨rfl, rfl, by simp⟩

/-- C5 amended: deletes of absent ids leave the state of both backends
unchanged (so a repeated delete has the same effect as one), and on the
RSM backend they also succeed without error; the Pebble backend instead
reports `network_not_found` / `ip_not_allocated` for absent ids. -/
theorem c5_amended (rs : RSMState) (ps : PebbleState) (id : String)
    (hn : Kv.get? rs.networks id = none) (ha : Kv.get? rs.allocations id = none)
    (pn : Kv.get? ps.networks id = none) (pa : Kv.get? ps.allocations id = none) :
    RaftStore.DeleteNetwork id rs = .ok rs ∧
    RaftStore.DeleteAllocation id rs = .ok rs ∧
    PebbleStore.DeleteNetwork id ps = .error .networkNotFound ∧
    PebbleStore.DeleteAllocation id ps = .error .ipNotAllocated := by
  refine ⟨?_, ?_, ?_, ?_⟩
  · simp [RaftStore.DeleteNetwork, applyEntry, hn]
  · simp [RaftStore.DeleteAllocation, applyEntry, ha]
  · simp [PebbleStore.DeleteNetwork, PebbleStore.GetNetwork, pn]
  · simp [PebbleStore.DeleteAllocation, PebbleStore.GetAllocation, pa]

/-- Witness for `c5_amended` at a concrete input. -/
theorem c5_witness :
    RaftStore.DeleteNetwork "missing" (newIPAMStateMachine 1 1) =
      .ok (newIPAMStateMachine 1 1) ∧
    RaftStore.DeleteAllocation "missing" (newIPAMStateMachine 1 1) =
      .ok (newIPAMStateMachine 1 1) ∧
    PebbleStore.DeleteNetwork "missing" emptyPebble = .error .networkNotFound ∧
    PebbleStore.DeleteAllocation "missing" emptyPebble = .error .ipNotAllocated :=
  c5_amended (newIPAMStateMachine 1 1) emptyPebble "missing" rfl rfl rfl rfl

/-! ## C3: snapshot round-trip -/

/-- C3 counterexample: an RSM state whose `networkByCIDR` index holds a
stale entry (reachable by re-saving network `net1` under a new CIDR) is
not reproduced by `recover(save(S))` — recovery rebuilds the index from
the entity data and drops the stale entry. -/
theorem c3_counterexample :
    RecoverFromSnapshot (SaveSnapshot staleCidrState)
      (newIPAMStateMachine staleCidrState.clusterID staleCidrState.nodeID) ≠
      staleCidrState := by
  decide

/-- C3 amended: recovering on a fresh replica from a snapshot saved from
`S` reproduces `S` exactly — entity collections always, and the three
derived indexes whenever `S`'s indexes equal the canonical rebuild from
its entity data (which recovery performs deterministically). -/
theorem c3_amended_roundtrip (S : RSMState)
    (hc : S.networkByCIDR = rebuildNetworkByCIDR S.networks)
    (hi : S.allocationByIP = (rebuildAllocIdx S.allocations).1)
    (hn : S.allocationsByNet = (rebuildAllocIdx S.allocations).2) :
    RecoverFromSnapshot (SaveSnapshot S) (newIPAMStateMachine S.clusterID S.nodeID) = S := by
  obtain ⟨cid, nid, nets, allocs, aud, nbc, abi, abn⟩ := S
  simp only at hc hi hn
  subst hc hi hn
  rfl

/-- Witness for `c3_amended_roundtrip` at a concrete input. -/
theorem c3_witness :
    RecoverFromSnapshot (SaveSnapshot c3WitState)
      (newIPAMStateMachine c3WitState.clusterID c3WitState.nodeID) = c3WitState :=
  c3_amended_roundtrip c3WitState (by decide) (by decide) (by decide)

/-! ## C8: deterministic apply -/

/-- `applyEntry` never reads or writes the replica identity fields: it
commutes with overwriting them. -/
theorem applyEntry_setIds (c n : Nat) (cmd : Cmd) (s : RSMState) :
    applyEntry cmd (setIds c n s) = setIds c n (applyEntry cmd s) := by
  obtain ⟨cid, nid, nets, allocs, aud, nbc, abi, abn⟩ := s
  cases cmd with
  | saveNetwork nn => rfl
  | deleteNetwork id =>
    simp only [applyEntry, setIds]
    cases Kv.get? nets id <;> rfl
  | saveAllocation a => rfl
  | deleteAllocation id =>
    simp only [applyEntry, setIds]
    cases Kv.get? allocs id with
    | none => rfl
    | some al =>
      dsimp only
      cases Kv.get? abn al.NetworkID <;> rfl
  | saveAudit e => rfl

/-- `applyAll` commutes with overwriting the replica identity fields. -/
theorem applyAll_setIds (c n : Nat) (cmds : List Cmd) (s : RSMState) :
    applyAll cmds (setIds c n s) = setIds c n (applyAll cmds s) := by
  induction cmds generalizing s with
  | nil => rfl
  | cons cmd rest ih => rw [applyAll, applyEntry_setIds, ih, applyAll]

/-- `Lookup` never reads the replica identity fields. -/
theorem Lookup_setIds (q : Query) (c n : Nat) (s : RSMState) :
    Lookup q (setIds c n s) = Lookup q s := by
  obtain ⟨cid, nid, nets, allocs, aud, nbc, abi, abn⟩ := s
  cases q <;> rfl

/-- C8: the state transition of `applyEntry` is a pure function of the
prior state and the command — it consults no wall-clock, randomness, or
replica identity — so two fresh state machines (even with different
cluster/node ids) that apply the identical command sequence agree on all
entity collections and indexes, and answer every query identically. -/
theorem c8_apply_deterministic (cid1 nid1 cid2 nid2 : Nat) (cmds : List Cmd) :
    (applyAll cmds (newIPAMStateMachine cid1 nid1)).networks =
      (applyAll cmds (newIPAMStateMachine cid2 nid2)).networks ∧
    (applyAll cmds (newIPAMStateMachine cid1 nid1)).allocations =
      (applyAll cmds (newIPAMStateMachine cid2 nid2)).allocations ∧
    (applyAll cmds (newIPAMStateMachine cid1 nid1)).audit =
      (applyAll cmds (newIPAMStateMachine cid2 nid2)).audit ∧
    (applyAll cmds (newIPAMStateMachine cid1 nid1)).networkByCIDR =
      (applyAll cmds (newIPAMStateMachine cid2 nid2)).networkByCIDR ∧
    (applyAll cmds (newIPAMStateMachine cid1 nid1)).allocationByIP =
      (applyAll cmds (newIPAMStateMachine cid2 nid2)).allocationByIP ∧
    (applyAll cmds (newIPAMStateMachine cid1 nid1)).allocationsByNet =
      (applyAll cmds (newIPAMStateMachine cid2 nid2)).allocationsByNet ∧
    ∀ q : Query, Lookup q (applyAll cmds (newIPAMStateMachine cid1 nid1)) =
      Lookup q (applyAll cmds (newIPAMStateMachine cid2 nid2)) := by
  have base1 : newIPAMStateMachine cid1 nid1 =
      setIds cid1 nid1 (newIPAMStateMachine cid2 nid2) := rfl
  have base2 : newIPAMStateMachine cid2 nid2 =
      setIds cid2 nid2 (newIPAMStateMachine cid2 nid2) := rfl
  rw [base1, applyAll_setIds]
  conv_rhs => rw [base2]
  rw [show applyAll cmds (setIds cid2 nid2 (newIPAMStateMachine cid2 nid2)) =
      setIds cid2 nid2 (applyAll cmds (newIPAMStateMachine cid2 nid2)) from
      applyAll_setIds cid2 nid2 cmds (newIPAMStateMachine cid2 nid2)]
  refine ⟨rfl, rfl, rfl, rfl, rfl, rfl, ?_⟩
  intro q
  rw [Lookup_setIds, Lookup_setIds]

/-! ## C2: audit bound -/

theorem length_truncAudit (l : List AuditEntry) :
    (truncAudit l).length = min l.length 10000 := by
  unfold truncAudit
  split
  · simp only [List.length_drop]
    omega
  · omega

theorem truncAudit_suffix (l : List AuditEntry) : (truncAudit l) <:+ l := by
  unfold truncAudit
  split
  · exact List.drop_suffix _ _
  · exact List.suffix_refl l

/-- Commands other than `cmdSaveAudit` leave the audit list untouched. -/
theorem audit_applyEntry_of_ne (c : Cmd) (s : RSMState)
    (h : ∀ e, c ≠ .saveAudit e) : (applyEntry c s).audit = s.audit := by
  cases c with
  | saveNetwork n => rfl
  | deleteNetwork id =>
    simp only [applyEntry]
    cases Kv.get? s.networks id <;> rfl
  | saveAllocation a => rfl
  | deleteAllocation id =>
    simp only [applyEntry]
    cases Kv.get? s.allocations id with
    | none => rfl
    | some al =>
      dsimp only
      cases Kv.get? s.allocationsByNet al.NetworkID <;> rfl
  | saveAudit e => exact absurd rfl (h e)

/-- Audit-bound invariant, generalized over a starting state whose audit
is a bounded suffix of an accumulator of previously appended entries. -/
theorem applyAll_audit_bound (cmds : List Cmd) (s : RSMState) (A : List AuditEntry)
    (hlen : s.audit.length ≤ 10000) (hsuf : s.audit <:+ A) :
    (applyAll cmds s).audit.length ≤ 10000 ∧
    (applyAll cmds s).audit <:+ (A ++ auditsOf cmds) := by
  induction cmds generalizing s A with
  | nil => exact ⟨hlen, by simpa [auditsOf] using hsuf⟩
  | cons c rest ih =>
    cases c with
    | saveAudit e =>
      have h1 : (applyEntry (.saveAudit e) s).audit = truncAudit (s.audit ++ [e]) := rfl
      have hlen' : (applyEntry (.saveAudit e) s).audit.length ≤ 10000 := by
        rw [h1, length_truncAudit]
        omega
      have hsuf' : (applyEntry (.saveAudit e) s).audit <:+ (A ++ [e]) := by
        rw [h1]
        refine (truncAudit_suffix _).trans ?_
        obtain ⟨w, hw⟩ := hsuf
        exact ⟨w, by rw [← List.append_assoc, hw]⟩
      have hmain := ih (applyEntry (.saveAudit e) s) (A ++ [e]) hlen' hsuf'
      refine ⟨hmain.1, ?_⟩
      have : A ++ auditsOf (Cmd.saveAudit e :: rest) = (A ++ [e]) ++ auditsOf rest := by
        simp [auditsOf]
      rw [applyAll, this]
      exact hmain.2
    | saveNetwork n =>
      have h1 : (applyEntry (.saveNetwork n) s).audit = s.audit :=
        audit_applyEntry_of_ne _ s (by intro e h; cases h)
      have hmain := ih (applyEntry (.saveNetwork n) s) A (h1 ▸ hlen) (h1 ▸ hsuf)
      exact ⟨hmain.1, by rw [applyAll, show auditsOf (Cmd.saveNetwork n :: rest) = auditsOf rest from rfl]; exact hmain.2⟩
    | deleteNetwork id =>
      have h1 : (applyEntry (.deleteNetwork id) s).audit = s.audit :=
        audit_applyEntry_of_ne _ s (by intro e h; cases h)
      have hmain := ih (applyEntry (.deleteNetwork id) s) A (h1 ▸ hlen) (h1 ▸ hsuf)
      exact ⟨hmain.1, by rw [applyAll, show auditsOf (Cmd.deleteNetwork id :: rest) = auditsOf rest from rfl]; exact hmain.2⟩
    | saveAllocation a =>
      have h1 : (applyEntry (.saveAllocation a) s).audit = s.audit :=
        audit_applyEntry_of_ne _ s (by intro e h; cases h)
      have hmain := ih (applyEntry (.saveAllocation a) s) A (h1 ▸ hlen) (h1 ▸ hsuf)
      exact ⟨hmain.1, by rw [applyAll, show auditsOf (Cmd.saveAllocation a :: rest) = auditsOf rest from rfl]; exact hmain.2⟩
    | deleteAllocation id =>
      have h1 : (applyEntry (.deleteAllocation id) s).audit = s.audit :=
        audit_applyEntry_of_ne _ s (by intro e h; cases h)
      have hmain := ih (applyEntry (.deleteAllocation id) s) A (h1 ▸ hlen) (h1 ▸ hsuf)
      exact ⟨hmain.1, by rw [applyAll, show auditsOf (Cmd.deleteAllocation id :: rest) = auditsOf rest from rfl]; exact hmain.2⟩

/-- C2 amended (RSM half): after any command sequence, the RSM audit log
holds at most 10000 entries, and what it holds is a contiguous suffix of
the appended entries in append order — the oldest entries are the ones
discarded.  (The Pebble backend does not enforce the bound; see the
counterexample.) -/
theorem c2_amended (cmds : List Cmd) (cid nid : Nat) :
    (applyAll cmds (newIPAMStateMachine cid nid)).audit.length ≤ 10000 ∧
    (applyAll cmds (newIPAMStateMachine cid nid)).audit <:+ auditsOf cmds := by
  have h := applyAll_audit_bound cmds (newIPAMStateMachine cid nid) []
    (by simp [newIPAMStateMachine]) (by simp [newIPAMStateMachine])
  simpa using h

theorem setSorted_get?_ne (l : Kv α) {k k' : String} (v : α) (h : k' ≠ k) :
    Kv.get? (Kv.setSorted l k v) k' = Kv.get? l k' := by
  have h' : ¬(k = k') := fun hh => h hh.symm
  induction l with
  | nil => simp [Kv.setSorted, Kv.get?, h']
  | cons p rest ih =>
    by_cases hp : p.1 = k
    · subst hp
      simp [Kv.setSorted, Kv.get?, h']
    · by_cases hlt : strLt k p.1 = true
      · simp [Kv.setSorted, Kv.get?, hp, hlt, h']
      · simp [Kv.setSorted, Kv.get?, hp, hlt, ih]

theorem setSorted_length_ge (l : Kv α) (k : String) (v : α)
    (h : Kv.get? l k = none) :
    l.length + 1 ≤ (Kv.setSorted l k v).length := by
  induction l with
  | nil => simp [Kv.setSorted]
  | cons p rest ih =>
    rw [Kv.get?] at h
    by_cases hp : p.1 = k
    · simp [hp] at h
    · rw [if_neg (by simpa using hp)] at h
      by_cases hlt : strLt k p.1 = true
      · simp [Kv.setSorted, hp, hlt]
      · have := ih h
        simp only [Kv.setSorted, if_neg (show ¬((p.1 == k) = true) by simpa using hp),
          if_neg hlt, List.length_cons]
        omega

/-- Appending entries with pairwise distinct keys, all fresh for the
current store, grows the Pebble audit column by one entry each. -/
theorem pebbleAppendAll_length_ge (es : List AuditEntry) (s : PebbleState)
    (hfresh : ∀ e ∈ es, Kv.get? s.audit (auditKey e) = none)
    (hnd : (es.map auditKey).Nodup) :
    s.audit.length + es.length ≤ (pebbleAppendAll es s).audit.length := by
  induction es generalizing s with
  | nil => simp [pebbleAppendAll]
  | cons e rest ih =>
    have hfe : Kv.get? s.audit (auditKey e) = none :=
      hfresh e (List.mem_cons_self _ _)
    have hstep : pebbleAppendAll (e :: rest) s =
        pebbleAppendAll rest { s with audit := Kv.setSorted s.audit (auditKey e) e } := rfl
    rw [hstep]
    have hnd' : (rest.map auditKey).Nodup := (List.nodup_cons.mp (by simpa using hnd)).2
    have hne : auditKey e ∉ rest.map auditKey :=
      (List.nodup_cons.mp (by simpa using hnd)).1
    have hfresh' : ∀ e' ∈ rest,
        Kv.get? (Kv.setSorted s.audit (auditKey e) e) (auditKey e') = none := by
      intro e' he'
      have hkne : auditKey e' ≠ auditKey e := by
        intro hh
        exact hne (hh ▸ List.mem_map.mpr ⟨e', he', rfl⟩)
      rw [setSorted_get?_ne _ _ hkne]
      exact hfresh e' (List.mem_cons_of_mem _ he')
    have hrec := ih { s with audit := Kv.setSorted s.audit (auditKey e) e } hfresh' hnd'
    have hgrow := setSorted_length_ge s.audit (auditKey e) e hfe
    simp only [List.length_cons] at *
    omega

theorem unaryID_length (i : Nat) : (unaryID i).length = i + 1 := by
  simp [unaryID, String.length]

theorem auditKey_mkAudit_length (i : Nat) : (auditKey (mkAudit i)).length = i + 3 := by
  have h0 : (toString (0 : Int)).length = 1 := by decide
  have : auditKey (mkAudit i) = toString (0 : Int) ++ "_" ++ unaryID i := rfl
  rw [this, String.length_append, String.length_append, h0, unaryID_length,
    show ("_".length = 1) from rfl]
  omega

theorem manyAudits_key_nodup : (manyAudits.map auditKey).Nodup := by
  rw [manyAudits, List.map_map]
  refine List.Nodup.map ?_ (List.nodup_range 10001)
  intro i j h
  have := congrArg String.length h
  simp only [Function.comp_apply, auditKey_mkAudit_length] at this
  omega

/-- C2 counterexample: 10001 audit appends against the Pebble backend
leave 10001 stored entries — `SaveAuditEntry` performs no truncation, so
the 10000 bound is violated on that backend. -/
theorem c2_counterexample :
    10000 < (pebbleAppendAll manyAudits emptyPebble).audit.length := by
  have h := pebbleAppendAll_length_ge manyAudits emptyPebble
    (fun e _ => rfl) manyAudits_key_nodup
  have hlen : manyAudits.length = 10001 := by
    rw [manyAudits, List.length_map, List.length_range]
  rw [hlen] at h
  simpa [emptyPebble] using h

/-! ## C9: audit listing order -/

theorem charsLt_irrefl (x : List Char) : charsLt x x = false := by
  induction x with
  | nil => rfl
  | cons a as ih => simp [charsLt, ih]

theorem charsLt_asymm {x y : List Char} (h : charsLt x y = true) :
    charsLt y x = false := by
  induction x generalizing y with
  | nil =>
    cases y with
    | nil => simp [charsLt] at h
    | cons b bs => rfl
  | cons a as ih =>
    cases y with
    | nil => simp [charsLt] at h
    | cons b bs =>
      by_cases hab : a < b
      · have hba : ¬(b < a) := lt_asymm hab
        simp [charsLt, hab, hba, ne_of_gt hab]
      · by_cases hba : b < a
        · simp [charsLt, hab, hba] at h
        · simp only [charsLt, if_neg hab, if_neg hba] at h
          simp [charsLt, hab, hba, ih h]

theorem strLt_asymm {x y : String} (h : strLt x y = true) : strLt y x = false :=
  charsLt_asymm h

theorem strLt_ne {x y : String} (h : strLt x y = true) : x ≠ y := by
  rintro rfl
  rw [strLt, charsLt_irrefl] at h
  exact Bool.false_ne_true h

/-- C9 counterexample: two entries appended to the Pebble backend with
strictly increasing timestamps 9 then 10.  The audit key embeds the
timestamp as a decimal string, and "10_b" sorts lexicographically before
"9_a", so `ListAuditEntries 1` returns the FIRST-appended entry, not the
most recent one. -/
theorem c9_counterexample :
    PebbleStore.ListAuditEntries 1 (pebbleAppendAll [digitAudit1, digitAudit2] emptyPebble) =
      [digitAudit1] ∧
    PebbleStore.ListAuditEntries 1 (pebbleAppendAll [digitAudit1, digitAudit2] emptyPebble) ≠
      [digitAudit2] := by
  refine ⟨by decide, by decide⟩

theorem setSorted_append_max (l : Kv α) (k : String) (v : α)
    (h : ∀ p ∈ l, strLt p.1 k = true) : Kv.setSorted l k v = l ++ [(k, v)] := by
  induction l with
  | nil => simp [Kv.setSorted]
  | cons p rest ih =>
    have hp := h p (List.mem_cons_self _ _)
    have hne : ¬(p.1 = k) := strLt_ne hp
    have hnlt : ¬(strLt k p.1 = true) := by
      rw [strLt_asymm hp]
      exact Bool.false_ne_true
    simp [Kv.setSorted, hne, hnlt, ih (fun q hq => h q (List.mem_cons_of_mem _ hq))]

/-- With strictly key-increasing appends, the Pebble audit column is the
appended entries in append order (each insert goes at the end). -/
theorem pebbleAppendAll_audit (es : List AuditEntry) (s : PebbleState)
    (h : ∀ e ∈ es, ∀ p ∈ s.audit, strLt p.1 (auditKey e) = true)
    (hp : es.Pairwise (fun a b => strLt (auditKey a) (auditKey b) = true)) :
    (pebbleAppendAll es s).audit = s.audit ++ es.map (fun e => (auditKey e, e)) := by
  induction es generalizing s with
  | nil => simp [pebbleAppendAll]
  | cons e rest ih =>
    have hstep : pebbleAppendAll (e :: rest) s =
        pebbleAppendAll rest { s with audit := Kv.setSorted s.audit (auditKey e) e } := rfl
    have hmax : Kv.setSorted s.audit (auditKey e) e = s.audit ++ [(auditKey e, e)] :=
      setSorted_append_max _ _ _ (fun p hpp => h e (List.mem_cons_self _ _) p hpp)
    have hpair := List.pairwise_cons.mp hp
    have h' : ∀ e' ∈ rest, ∀ p ∈ s.audit ++ [(auditKey e, e)],
        strLt p.1 (auditKey e') = true := by
      intro e' he' p hpmem
      rcases List.mem_append.mp hpmem with h1 | h1
      · exact h e' (List.mem_cons_of_mem _ he') p h1
      · simp only [List.mem_singleton] at h1
        subst h1
        exact hpair.1 e' he'
    rw [hstep]
    have hr := ih { s with audit := Kv.setSorted s.audit (auditKey e) e }
      (by rw [hmax]; exact h') hpair.2
    rw [hr]
    simp [hmax]

/-- Appending at most 10000 entries through `cmdSaveAudit` stores them
all, in order, with no truncation. -/
theorem applyAll_saveAudit_eq (es : List AuditEntry) (s : RSMState)
    (h : s.audit.length + es.length ≤ 10000) :
    (applyAll (es.map Cmd.saveAudit) s).audit = s.audit ++ es := by
  induction es generalizing s with
  | nil => simp [applyAll]
  | cons e rest ih =>
    have hlen2 : s.audit.length + rest.length + 1 ≤ 10000 := by
      simp only [List.length_cons] at h
      omega
    have hstep : applyAll ((e :: rest).map Cmd.saveAudit) s =
        applyAll (rest.map Cmd.saveAudit) (applyEntry (.saveAudit e) s) := rfl
    have htr : (applyEntry (.saveAudit e) s).audit = s.audit ++ [e] := by
      show truncAudit (s.audit ++ [e]) = s.audit ++ [e]
      unfold truncAudit
      rw [if_neg (by simp only [List.length_append, List.length_singleton]; omega)]
    rw [hstep]
    have hrec := ih (applyEntry (.saveAudit e) s)
      (by rw [htr]; simp only [List.length_append, List.length_singleton]; omega)
    rw [hrec, htr, List.append_assoc]
    rfl

/-- For a positive limit, the Raft store's audit listing is the reversed
length-bounded suffix of the stored audit list. -/
theorem raft_listAudit_pos (k : Int) (hk : 1 ≤ k) (s : RSMState) :
    RaftStore.ListAuditEntries k s =
      .ok ((s.audit.drop (s.audit.length - k.toNat)).reverse) := by
  simp only [RaftStore.ListAuditEntries, Lookup]
  rw [if_neg (by omega)]

/-- For a positive limit, the Pebble store's audit listing is the
reversed length-bounded suffix of the stored entries in key order. -/
theorem pebble_listAudit_pos (k : Int) (hk : 1 ≤ k) (s : PebbleState) :
    PebbleStore.ListAuditEntries k s =
      ((Kv.values s.audit).drop ((Kv.values s.audit).length - k.toNat)).reverse := by
  simp only [PebbleStore.ListAuditEntries]
  rw [if_neg (by omega)]

/-- C9 amended: for stores holding audit entries appended with strictly
increasing keys `{ts}_{id}` in lexicographic byte order (as holds for
realistic equal-digit-width nanosecond timestamps; the unconditional
claim fails on Pebble, whose decimal keys order "10_b" before "9_a") and,
for the RSM backend, at most 10000 appends, `list_audit(K)` with K >= 1
returns exactly min(K, N) entries: the most recently appended ones,
newest first, on both backends. -/
theorem c9_amended (es : List AuditEntry) (k : Int) (hk : 1 ≤ k)
    (hlen : es.length ≤ 10000)
    (hinc : es.Pairwise (fun a b => strLt (auditKey a) (auditKey b) = true)) :
    RaftStore.ListAuditEntries k
      (applyAll (es.map Cmd.saveAudit) (newIPAMStateMachine 1 1)) =
      .ok ((es.drop (es.length - k.toNat)).reverse) ∧
    PebbleStore.ListAuditEntries k (pebbleAppendAll es emptyPebble) =
      (es.drop (es.length - k.toNat)).reverse ∧
    ((es.drop (es.length - k.toNat)).reverse).length = min k.toNat es.length := by
  have hrsm : (applyAll (es.map Cmd.saveAudit) (newIPAMStateMachine 1 1)).audit = es := by
    have := applyAll_saveAudit_eq es (newIPAMStateMachine 1 1)
      (by simpa [newIPAMStateMachine] using hlen)
    simpa [newIPAMStateMachine] using this
  have hpeb : (pebbleAppendAll es emptyPebble).audit =
      es.map (fun e => (auditKey e, e)) := by
    have := pebbleAppendAll_audit es emptyPebble
      (by intro e he p hp; simp [emptyPebble] at hp) hinc
    simpa [emptyPebble] using this
  refine ⟨?_, ?_, ?_⟩
  · rw [raft_listAudit_pos k hk, hrsm]
  · rw [pebble_listAudit_pos k hk, hpeb]
    simp only [Kv.values, List.map_map]
    rw [show ((fun (p : String × AuditEntry) => p.2) ∘ fun e => (auditKey e, e)) = id from rfl,
      List.map_id]
  · simp only [List.length_reverse, List.length_drop]
    omega

/-- Witness for `c9_amended` at a concrete input. -/
theorem c9_witness :
    RaftStore.ListAuditEntries 1
      (applyAll ([incAudit1, incAudit2].map Cmd.saveAudit) (newIPAMStateMachine 1 1)) =
      .ok (([incAudit1, incAudit2].drop
        ([incAudit1, incAudit2].length - (1 : Int).toNat)).reverse) ∧
    PebbleStore.ListAuditEntries 1 (pebbleAppendAll [incAudit1, incAudit2] emptyPebble) =
      (([incAudit1, incAudit2].drop
        ([incAudit1, incAudit2].length - (1 : Int).toNat)).reverse) ∧
    ((([incAudit1, incAudit2].drop
        ([incAudit1, incAudit2].length - (1 : Int).toNat)).reverse)).length =
      min (1 : Int).toNat [incAudit1, incAudit2].length :=
  c9_amended [incAudit1, incAudit2] 1 (by decide) (by decide) (by decide)

/-! ## Reduction helpers for the per-command state updates -/

namespace Kv

theorem mem_del_elim {l : Kv α} {k : String} {p : String × α}
    (h : p ∈ del l k) : p ∈ l ∧ p.1 ≠ k := by
  induction l with
  | nil => simp [del] at h
  | cons q rest ih =>
    by_cases hq : q.1 = k
    · rw [del, if_pos (by simpa using hq)] at h
      have hr := ih h
      exact ⟨List.mem_cons_of_mem _ hr.1, hr.2⟩
    · rw [del, if_neg (by simpa using hq)] at h
      rcases List.mem_cons.mp h with h1 | h1
      · subst h1
        exact ⟨List.mem_cons_self _ _, hq⟩
      · have hr := ih h1
        exact ⟨List.mem_cons_of_mem _ hr.1, hr.2⟩

theorem mem_set_elim_nodup {l : Kv α} {k : String} {v : α} {p : String × α}
    (hnd : NodupKeys l) (h : p ∈ set l k v) :
    p = (k, v) ∨ (p ∈ l ∧ p.1 ≠ k) := by
  induction l with
  | nil =>
    simp [set] at h
    exact Or.inl h
  | cons q rest ih =>
    have hndr : NodupKeys rest := (List.nodup_cons.mp hnd).2
    have hq1 : q.1 ∉ keys rest := (List.nodup_cons.mp hnd).1
    by_cases hq : q.1 = k
    · rw [set, if_pos (by simpa using hq)] at h
      rcases List.mem_cons.mp h with h1 | h1
      · exact Or.inl h1
      · refine Or.inr ⟨List.mem_cons_of_mem _ h1, ?_⟩
        intro hpk
        apply hq1
        rw [hq, ← hpk]
        exact List.mem_map.mpr ⟨p, h1, rfl⟩
    · rw [set, if_neg (by simpa using hq)] at h
      rcases List.mem_cons.mp h with h1 | h1
      · subst h1
        exact Or.inr ⟨List.mem_cons_self _ _, hq⟩
      · rcases ih hndr h1 with h2 | h2
        · exact Or.inl h2
        · exact Or.inr ⟨List.mem_cons_of_mem _ h2.1, h2.2⟩

end Kv

theorem applyEntry_deleteNetwork_none (s : RSMState) (id : String)
    (hg : Kv.get? s.networks id = none) :
    applyEntry (.deleteNetwork id) s = s := by
  simp [applyEntry, hg]

theorem applyEntry_deleteNetwork_some (s : RSMState) (id : String) (nw : Network)
    (hg : Kv.get? s.networks id = some nw) :
    applyEntry (.deleteNetwork id) s =
      { s with
        networks := Kv.del s.networks id
        networkByCIDR := Kv.del s.networkByCIDR nw.CIDR
        allocations := (cascadeDel ((Kv.get? s.allocationsByNet id).getD [])
          s.allocations s.allocationByIP).1
        allocationByIP := (cascadeDel ((Kv.get? s.allocationsByNet id).getD [])
          s.allocations s.allocationByIP).2
        allocationsByNet := Kv.del s.allocationsByNet id } := by
  simp [applyEntry, hg]

theorem pebbleNetStep_save (n : Network) (p : PebbleState) :
    pebbleNetStep (.save n) p =
      { p with networks := Kv.set p.networks n.ID n
               cidrIdx := Kv.set p.cidrIdx n.CIDR n.ID } := rfl

theorem pebbleDeleteNetwork_none (p : PebbleState) (id : String)
    (hg : Kv.get? p.networks id = none) :
    PebbleStore.DeleteNetwork id p = .error .networkNotFound := by
  simp [PebbleStore.DeleteNetwork, PebbleStore.GetNetwork, hg]

theorem pebbleDeleteNetwork_some (p : PebbleState) (id : String) (nw : Network)
    (hg : Kv.get? p.networks id = some nw) :
    PebbleStore.DeleteNetwork id p =
      .ok { p with
            networks := Kv.del p.networks id
            cidrIdx := Kv.del p.cidrIdx nw.CIDR
            allocations := p.allocations.filter (fun q => !(q.2.NetworkID == id))
            ipIdx := (p.allocations.filter (fun q => q.2.NetworkID == id)).foldl
              (fun idx q => Kv.del idx (ipKey q.2.NetworkID q.2.IP)) p.ipIdx } := by
  simp [PebbleStore.DeleteNetwork, PebbleStore.GetNetwork, hg]

theorem pebbleNetStep_delete_none (p : PebbleState) (id : String)
    (hg : Kv.get? p.networks id = none) :
    pebbleNetStep (.delete id) p = p := by
  simp [pebbleNetStep, pebbleDeleteNetwork_none p id hg]

theorem pebbleNetStep_delete_some (p : PebbleState) (id : String) (nw : Network)
    (hg : Kv.get? p.networks id = some nw) :
    pebbleNetStep (.delete id) p =
      { p with
        networks := Kv.del p.networks id
        cidrIdx := Kv.del p.cidrIdx nw.CIDR
        allocations := p.allocations.filter (fun q => !(q.2.NetworkID == id))
        ipIdx := (p.allocations.filter (fun q => q.2.NetworkID == id)).foldl
          (fun idx q => Kv.del idx (ipKey q.2.NetworkID q.2.IP)) p.ipIdx } := by
  simp [pebbleNetStep, pebbleDeleteNetwork_some p id nw hg]

/-! ## C7: CIDR index bijection -/

/-- The bijection invariant is preserved by one valid network operation. -/
theorem cidrInv_step (s : RSMState) (op : NetOp)
    (hv : netOpOk s.networks op = true)
    (hinv : cidrInv s.networks s.networkByCIDR) :
    cidrInv (applyEntry (netCmd op) s).networks
      (applyEntry (netCmd op) s).networkByCIDR := by
  obtain ⟨hndN, hndC, hfwd, hbwd⟩ := hinv
  cases op with
  | save n =>
    simp only [netOpOk, Bool.and_eq_true] at hv
    have hv1 : ∀ old, Kv.get? s.networks n.ID = some old → old.CIDR = n.CIDR := by
      intro old hold
      have h1 := hv.1
      rw [hold] at h1
      simpa using h1
    have hv2 : ∀ p ∈ s.networks, p.2.CIDR = n.CIDR → p.1 = n.ID := by
      intro p hp hcidr
      have hall := hv.2
      rw [List.all_eq_true] at hall
      have := hall p hp
      simp [hcidr] at this
      exact this
    show cidrInv (Kv.set s.networks n.ID n) (Kv.set s.networkByCIDR n.CIDR n.ID)
    refine ⟨Kv.nodupKeys_set hndN _ _, Kv.nodupKeys_set hndC _ _, ?_, ?_⟩
    · intro p hp
      rcases Kv.mem_set_elim_nodup hndN hp with rfl | ⟨hpold, hpne⟩
      · exact ⟨rfl, Kv.get?_set_self _ _ _⟩
      · obtain ⟨hid, hidx⟩ := hfwd p hpold
        refine ⟨hid, ?_⟩
        have hcne : p.2.CIDR ≠ n.CIDR := fun heq => hpne (hv2 p hpold heq)
        rw [Kv.get?_set_ne _ _ hcne, hidx]
    · intro q hq
      rcases Kv.mem_set_elim_nodup hndC hq with rfl | ⟨hqold, hqne⟩
      · exact ⟨n, Kv.get?_set_self _ _ _, rfl⟩
      · obtain ⟨m, hm, hmc⟩ := hbwd q hqold
        have hq2 : q.2 ≠ n.ID := by
          intro heq
          rw [heq] at hm
          apply hqne
          rw [← hmc]
          exact hv1 m hm
        exact ⟨m, by rw [Kv.get?_set_ne _ _ hq2]; exact hm, hmc⟩
  | delete id =>
    show cidrInv (applyEntry (.deleteNetwork id) s).networks
        (applyEntry (.deleteNetwork id) s).networkByCIDR
    cases hg : Kv.get? s.networks id with
    | none =>
      rw [applyEntry_deleteNetwork_none s id hg]
      exact ⟨hndN, hndC, hfwd, hbwd⟩
    | some nw =>
      rw [applyEntry_deleteNetwork_some s id nw hg]
      refine ⟨Kv.nodupKeys_del _ hndN, Kv.nodupKeys_del _ hndC, ?_, ?_⟩
      · intro p hp
        obtain ⟨hpold, hpne⟩ := Kv.mem_del_elim hp
        obtain ⟨hid, hidx⟩ := hfwd p hpold
        refine ⟨hid, ?_⟩
        have hnwmem : (id, nw) ∈ s.networks := Kv.mem_of_get? hg
        obtain ⟨_, hnwidx⟩ := hfwd (id, nw) hnwmem
        have hcne : p.2.CIDR ≠ nw.CIDR := by
          intro heq
          rw [heq] at hidx
          have hsome : some p.1 = some id := by
            rw [← hidx]
            simpa using hnwidx
          exact hpne (Option.some.inj hsome)
        rw [Kv.get?_del_ne _ hcne, hidx]
      · intro q hq
        obtain ⟨hqold, hqne⟩ := Kv.mem_del_elim hq
        obtain ⟨m, hm, hmc⟩ := hbwd q hqold
        have hq2 : q.2 ≠ id := by
          intro heq
          rw [heq, hg] at hm
          apply hqne
          rw [← hmc, Option.some.inj hm]
        exact ⟨m, by rw [Kv.get?_del_ne _ hq2]; exact hm, hmc⟩

/-- The bijection invariant is preserved by a valid trace. -/
theorem cidrInv_run (ops : List NetOp) (s : RSMState)
    (hv : netSeqOk s ops = true)
    (hinv : cidrInv s.networks s.networkByCIDR) :
    cidrInv (rsmNetRun ops s).networks (rsmNetRun ops s).networkByCIDR := by
  induction ops generalizing s with
  | nil => exact hinv
  | cons op rest ih =>
    simp only [netSeqOk, Bool.and_eq_true] at hv
    exact ih _ hv.2 (cidrInv_step s op hv.1 hinv)

/-- Under identical traces, the Pebble store's network record and CIDR
index columns coincide with the RSM's. -/
theorem pebbleNetRun_eq (ops : List NetOp) (s : RSMState) (p : PebbleState)
    (h1 : p.networks = s.networks) (h2 : p.cidrIdx = s.networkByCIDR) :
    (pebbleNetRun ops p).networks = (rsmNetRun ops s).networks ∧
    (pebbleNetRun ops p).cidrIdx = (rsmNetRun ops s).networkByCIDR := by
  induction ops generalizing s p with
  | nil => exact ⟨h1, h2⟩
  | cons op rest ih =>
    rw [pebbleNetRun, rsmNetRun]
    apply ih
    case h1 =>
      cases op with
      | save n =>
        rw [pebbleNetStep_save]
        show Kv.set p.networks n.ID n = (applyEntry (.saveNetwork n) s).networks
        rw [h1]
        rfl
      | delete id =>
        cases hg : Kv.get? s.networks id with
        | none =>
          rw [pebbleNetStep_delete_none p id (by rw [h1]; exact hg),
            show applyEntry (netCmd (.delete id)) s = s from
              applyEntry_deleteNetwork_none s id hg]
          exact h1
        | some nw =>
          rw [pebbleNetStep_delete_some p id nw (by rw [h1]; exact hg),
            show applyEntry (netCmd (.delete id)) s = _ from
              applyEntry_deleteNetwork_some s id nw hg]
          show Kv.del p.networks id = Kv.del s.networks id
          rw [h1]
    case h2 =>
      cases op with
      | save n =>
        rw [pebbleNetStep_save]
        show Kv.set p.cidrIdx n.CIDR n.ID = (applyEntry (.saveNetwork n) s).networkByCIDR
        rw [h2]
        rfl
      | delete id =>
        cases hg : Kv.get? s.networks id with
        | none =>
          rw [pebbleNetStep_delete_none p id (by rw [h1]; exact hg),
            show applyEntry (netCmd (.delete id)) s = s from
              applyEntry_deleteNetwork_none s id hg]
          exact h2
        | some nw =>
          rw [pebbleNetStep_delete_some p id nw (by rw [h1]; exact hg),
            show applyEntry (netCmd (.delete id)) s = _ from
              applyEntry_deleteNetwork_some s id nw hg]
          show Kv.del p.cidrIdx nw.CIDR = Kv.del s.networkByCIDR nw.CIDR
          rw [h2]

/-- C7: in every store state reachable by save_network / delete_network
traces in which no save carries the canonical CIDR of a different stored
network and a re-save never changes a network's CIDR, the CIDR index is a
bijection: `get_network_by_cidr(n.CIDR)` returns exactly `n` for every
stored network `n`, and two stored networks never share a CIDR — on both
the RSM-backed and the Pebble-backed store. -/
theorem c7_cidr_bijection (ops : List NetOp) (cid nid : Nat)
    (hv : netSeqOk (newIPAMStateMachine cid nid) ops = true) :
    (∀ p ∈ (rsmNetRun ops (newIPAMStateMachine cid nid)).networks,
      RaftStore.GetNetworkByCIDR p.2.CIDR (rsmNetRun ops (newIPAMStateMachine cid nid)) =
        .ok (some p.2)) ∧
    (∀ p ∈ (pebbleNetRun ops emptyPebble).networks,
      PebbleStore.GetNetworkByCIDR p.2.CIDR (pebbleNetRun ops emptyPebble) = .ok p.2) ∧
    (∀ p q, p ∈ (rsmNetRun ops (newIPAMStateMachine cid nid)).networks →
      q ∈ (rsmNetRun ops (newIPAMStateMachine cid nid)).networks →
      p.2.CIDR = q.2.CIDR → p = q) ∧
    (∀ p q, p ∈ (pebbleNetRun ops emptyPebble).networks →
      q ∈ (pebbleNetRun ops emptyPebble).networks → p.2.CIDR = q.2.CIDR → p = q) := by
  have hinv0 : cidrInv (newIPAMStateMachine cid nid).networks
      (newIPAMStateMachine cid nid).networkByCIDR := by
    refine ⟨List.nodup_nil, List.nodup_nil, ?_, ?_⟩ <;> intro p hp <;>
      simp [newIPAMStateMachine] at hp
  obtain ⟨hndN, hndC, hfwd, hbwd⟩ := cidrInv_run ops _ hv hinv0
  have hpe := pebbleNetRun_eq ops (newIPAMStateMachine cid nid) emptyPebble rfl rfl
  refine ⟨?_, ?_, ?_, ?_⟩
  · intro p hp
    obtain ⟨hid, hidx⟩ := hfwd p hp
    have hget : Kv.get? (rsmNetRun ops (newIPAMStateMachine cid nid)).networks p.1 =
        some p.2 :=
      Kv.get?_eq_some_of_mem hndN (by simpa using hp)
    simp [RaftStore.GetNetworkByCIDR, Lookup, hidx, hget]
  · intro p hp
    rw [hpe.1] at hp
    obtain ⟨hid, hidx⟩ := hfwd p hp
    have hget : Kv.get? (rsmNetRun ops (newIPAMStateMachine cid nid)).networks p.1 =
        some p.2 :=
      Kv.get?_eq_some_of_mem hndN (by simpa using hp)
    simp [PebbleStore.GetNetworkByCIDR, PebbleStore.GetNetwork, hpe.1, hpe.2, hidx, hget]
  · intro p q hp hq hcidr
    obtain ⟨hidp, hidxp⟩ := hfwd p hp
    obtain ⟨hidq, hidxq⟩ := hfwd q hq
    rw [hcidr] at hidxp
    have hk : p.1 = q.1 := Option.some.inj (hidxp.symm.trans hidxq)
    have hgp := Kv.get?_eq_some_of_mem hndN
      (show (p.1, p.2) ∈ (rsmNetRun ops (newIPAMStateMachine cid nid)).networks by
        simpa using hp)
    have hgq := Kv.get?_eq_some_of_mem hndN
      (show (q.1, q.2) ∈ (rsmNetRun ops (newIPAMStateMachine cid nid)).networks by
        simpa using hq)
    rw [hk] at hgp
    have hval : p.2 = q.2 := Option.some.inj (hgp.symm.trans hgq)
    exact Prod.ext_iff.mpr ⟨hk, hval⟩
  · intro p q hp hq hcidr
    rw [hpe.1] at hp hq
    obtain ⟨hidp, hidxp⟩ := hfwd p hp
    obtain ⟨hidq, hidxq⟩ := hfwd q hq
    rw [hcidr] at hidxp
    have hk : p.1 = q.1 := Option.some.inj (hidxp.symm.trans hidxq)
    have hgp := Kv.get?_eq_some_of_mem hndN
      (show (p.1, p.2) ∈ (rsmNetRun ops (newIPAMStateMachine cid nid)).networks by
        simpa using hp)
    have hgq := Kv.get?_eq_some_of_mem hndN
      (show (q.1, q.2) ∈ (rsmNetRun ops (newIPAMStateMachine cid nid)).networks by
        simpa using hq)
    rw [hk] at hgp
    have hval : p.2 = q.2 := Option.some.inj (hgp.symm.trans hgq)
    exact Prod.ext_iff.mpr ⟨hk, hval⟩

/-- Witness for `c7_cidr_bijection` at a concrete input. -/
theorem c7_witness :
    (∀ p ∈ (rsmNetRun [.save exNet] (newIPAMStateMachine 1 1)).networks,
      RaftStore.GetNetworkByCIDR p.2.CIDR (rsmNetRun [.save exNet] (newIPAMStateMachine 1 1)) =
        .ok (some p.2)) ∧
    (∀ p ∈ (pebbleNetRun [.save exNet] emptyPebble).networks,
      PebbleStore.GetNetworkByCIDR p.2.CIDR (pebbleNetRun [.save exNet] emptyPebble) =
        .ok p.2) ∧
    (∀ p q, p ∈ (rsmNetRun [.save exNet] (newIPAMStateMachine 1 1)).networks →
      q ∈ (rsmNetRun [.save exNet] (newIPAMStateMachine 1 1)).networks →
      p.2.CIDR = q.2.CIDR → p = q) ∧
    (∀ p q, p ∈ (pebbleNetRun [.save exNet] emptyPebble).networks →
      q ∈ (pebbleNetRun [.save exNet] emptyPebble).networks →
      p.2.CIDR = q.2.CIDR → p = q) :=
  c7_cidr_bijection [.save exNet] 1 1 (by decide)

/-! ## C10: allocation lists are duplicate-free -/

theorem applyEntry_saveAllocation_eq (a : IPAllocation) (s : RSMState) :
    applyEntry (.saveAllocation a) s =
      { s with
        allocations := Kv.set s.allocations a.ID a
        allocationByIP := Kv.set s.allocationByIP (ipKey a.NetworkID a.IP) a.ID
        allocationsByNet := Kv.set s.allocationsByNet a.NetworkID
          (if ((Kv.get? s.allocationsByNet a.NetworkID).getD []).contains a.ID
           then (Kv.get? s.allocationsByNet a.NetworkID).getD []
           else ((Kv.get? s.allocationsByNet a.NetworkID).getD []) ++ [a.ID]) } := rfl

theorem applyEntry_deleteAllocation_none (s : RSMState) (id : String)
    (hg : Kv.get? s.allocations id = none) :
    applyEntry (.deleteAllocation id) s = s := by
  simp [applyEntry, hg]

theorem applyEntry_deleteAllocation_some_none (s : RSMState) (id : String)
    (al : IPAllocation) (hg : Kv.get? s.allocations id = some al)
    (hl : Kv.get? s.allocationsByNet al.NetworkID = none) :
    applyEntry (.deleteAllocation id) s =
      { s with
        allocations := Kv.del s.allocations id
        allocationByIP := Kv.del s.allocationByIP (ipKey al.NetworkID al.IP) } := by
  simp [applyEntry, hg, hl]

theorem applyEntry_deleteAllocation_some_some (s : RSMState) (id : String)
    (al : IPAllocation) (lst : List String)
    (hg : Kv.get? s.allocations id = some al)
    (hl : Kv.get? s.allocationsByNet al.NetworkID = some lst) :
    applyEntry (.deleteAllocation id) s =
      { s with
        allocations := Kv.del s.allocations id
        allocationByIP := Kv.del s.allocationByIP (ipKey al.NetworkID al.IP)
        allocationsByNet := Kv.set s.allocationsByNet al.NetworkID
          (lst.filter (fun x => !(x == id))) } := by
  simp [applyEntry, hg, hl]

theorem cascadeDel_fst_get? (lst : List String) (allocs : Kv IPAllocation)
    (ipIdx : Kv String) (aid : String) :
    Kv.get? (cascadeDel lst allocs ipIdx).1 aid =
      if aid ∈ lst then none else Kv.get? allocs aid := by
  induction lst generalizing allocs ipIdx with
  | nil => simp [cascadeDel]
  | cons b rest ih =>
    cases hb : Kv.get? allocs b with
    | none =>
      simp only [cascadeDel, hb]
      rw [ih]
      by_cases hab : aid ∈ rest
      · simp [hab]
      · by_cases haid : aid = b
        · subst haid
          simp [hab, hb]
        · simp [hab, haid]
    | some al =>
      simp only [cascadeDel, hb]
      rw [ih]
      by_cases hab : aid ∈ rest
      · simp [hab]
      · by_cases haid : aid = b
        · subst haid
          simp [hab, Kv.get?_del_self]
        · simp [hab, haid, Kv.get?_del_ne _ haid]

theorem cascadeDel_fst_subset (lst : List String) (allocs : Kv IPAllocation)
    (ipIdx : Kv String) (p : String × IPAllocation)
    (h : p ∈ (cascadeDel lst allocs ipIdx).1) : p ∈ allocs := by
  induction lst generalizing allocs ipIdx with
  | nil => simpa [cascadeDel] using h
  | cons b rest ih =>
    by_cases hb : ∃ al, Kv.get? allocs b = some al
    · obtain ⟨al, hal⟩ := hb
      simp only [cascadeDel, hal] at h
      exact Kv.mem_of_mem_del (ih _ _ h)
    · have hn : Kv.get? allocs b = none := by
        cases hq : Kv.get? allocs b with
        | none => rfl
        | some al => exact absurd ⟨al, hq⟩ hb
      simp only [cascadeDel, hn] at h
      exact ih _ _ h

theorem cascadeDel_fst_nodup (lst : List String) (allocs : Kv IPAllocation)
    (ipIdx : Kv String) (hnd : Kv.NodupKeys allocs) :
    Kv.NodupKeys (cascadeDel lst allocs ipIdx).1 := by
  induction lst generalizing allocs ipIdx with
  | nil => exact hnd
  | cons b rest ih =>
    cases hb : Kv.get? allocs b with
    | none =>
      simp only [cascadeDel, hb]
      exact ih _ _ hnd
    | some al =>
      simp only [cascadeDel, hb]
      exact ih _ _ (Kv.nodupKeys_del _ hnd)

/-- One command preserves the allocation-list invariant (no validity
assumptions: this holds for every command). -/
theorem allocListInv_step (c : Cmd) (s : RSMState) (hinv : allocListInv s) :
    allocListInv (applyEntry c s) := by
  obtain ⟨hnd, hid, hlnd, hcomp⟩ := hinv
  cases c with
  | saveNetwork n => exact ⟨hnd, hid, hlnd, hcomp⟩
  | saveAudit e => exact ⟨hnd, hid, hlnd, hcomp⟩
  | saveAllocation a =>
    rw [applyEntry_saveAllocation_eq]
    refine ⟨Kv.nodupKeys_set hnd _ _, ?_, ?_, ?_⟩
    · intro p hp
      rcases Kv.mem_set_elim_nodup hnd hp with rfl | ⟨hpo, _⟩
      · rfl
      · exact hid p hpo
    · intro q hq
      rcases Kv.mem_set_elim hq with rfl | hqo
      · show (if ((Kv.get? s.allocationsByNet a.NetworkID).getD []).contains a.ID
             then (Kv.get? s.allocationsByNet a.NetworkID).getD []
             else ((Kv.get? s.allocationsByNet a.NetworkID).getD []) ++ [a.ID]).Nodup
        have hbase : ((Kv.get? s.allocationsByNet a.NetworkID).getD []).Nodup := by
          cases hq2 : Kv.get? s.allocationsByNet a.NetworkID with
          | none => simp
          | some lst => simpa using hlnd (a.NetworkID, lst) (Kv.mem_of_get? hq2)
        by_cases hc : ((Kv.get? s.allocationsByNet a.NetworkID).getD []).contains a.ID
        · rw [if_pos hc]
          exact hbase
        · rw [if_neg hc]
          refine List.Nodup.append hbase (List.nodup_singleton _) ?_
          intro x hx hx'
          simp only [List.mem_singleton] at hx'
          subst hx'
          exact hc (List.elem_eq_true_of_mem hx)
      · exact hlnd q hqo
    · intro p hp
      rcases Kv.mem_set_elim_nodup hnd hp with rfl | ⟨hpo, hpne⟩
      · rw [Kv.get?_set_self]
        show a.ID ∈ (some _).getD []
        simp only [Option.getD_some]
        by_cases hc : ((Kv.get? s.allocationsByNet a.NetworkID).getD []).contains a.ID
        · rw [if_pos hc]
          exact List.mem_of_elem_eq_true hc
        · rw [if_neg hc]
          exact List.mem_append.mpr (Or.inr (List.mem_singleton.mpr rfl))
      · have hold := hcomp p hpo
        by_cases hsame : p.2.NetworkID = a.NetworkID
        · rw [hsame, Kv.get?_set_self]
          simp only [Option.getD_some]
          rw [hsame] at hold
          by_cases hc : ((Kv.get? s.allocationsByNet a.NetworkID).getD []).contains a.ID
          · rwa [if_pos hc]
          · rw [if_neg hc]
            exact List.mem_append.mpr (Or.inl hold)
        · rwa [Kv.get?_set_ne _ _ hsame]
  | deleteAllocation id =>
    cases hg : Kv.get? s.allocations id with
    | none =>
      rw [applyEntry_deleteAllocation_none s id hg]
      exact ⟨hnd, hid, hlnd, hcomp⟩
    | some al =>
      cases hl : Kv.get? s.allocationsByNet al.NetworkID with
      | none =>
        rw [applyEntry_deleteAllocation_some_none s id al hg hl]
        refine ⟨Kv.nodupKeys_del _ hnd, ?_, hlnd, ?_⟩
        · intro p hp
          exact hid p (Kv.mem_del_elim hp).1
        · intro p hp
          exact hcomp p (Kv.mem_del_elim hp).1
      | some lst =>
        rw [applyEntry_deleteAllocation_some_some s id al lst hg hl]
        refine ⟨Kv.nodupKeys_del _ hnd, ?_, ?_, ?_⟩
        · intro p hp
          exact hid p (Kv.mem_del_elim hp).1
        · intro q hq
          rcases Kv.mem_set_elim hq with rfl | hqo
          · exact List.Nodup.filter _
              (by simpa using hlnd (al.NetworkID, lst) (Kv.mem_of_get? hl))
          · exact hlnd q hqo
        · intro p hp
          obtain ⟨hpo, hpne⟩ := Kv.mem_del_elim hp
          have hold := hcomp p hpo
          by_cases hsame : p.2.NetworkID = al.NetworkID
          · rw [hsame, Kv.get?_set_self]
            simp only [Option.getD_some]
            rw [hsame, hl] at hold
            simp only [Option.getD_some] at hold
            exact List.mem_filter.mpr ⟨hold, by simpa using hpne⟩
          · rwa [Kv.get?_set_ne _ _ hsame]
  | deleteNetwork id =>
    cases hg : Kv.get? s.networks id with
    | none =>
      rw [applyEntry_deleteNetwork_none s id hg]
      exact ⟨hnd, hid, hlnd, hcomp⟩
    | some nw =>
      rw [applyEntry_deleteNetwork_some s id nw hg]
      refine ⟨cascadeDel_fst_nodup _ _ _ hnd, ?_, ?_, ?_⟩
      · intro p hp
        exact hid p (cascadeDel_fst_subset _ _ _ p hp)
      · intro q hq
        exact hlnd q (Kv.mem_del_elim hq).1
      · intro p hp
        have hpo := cascadeDel_fst_subset _ _ _ p hp
        have hsurv : Kv.get? (cascadeDel ((Kv.get? s.allocationsByNet id).getD [])
            s.allocations s.allocationByIP).1 p.1 = some p.2 :=
          Kv.get?_eq_some_of_mem (cascadeDel_fst_nodup _ _ _ hnd) (by simpa using hp)
        rw [cascadeDel_fst_get?] at hsurv
        have hnotin : p.1 ∉ (Kv.get? s.allocationsByNet id).getD [] := by
          intro hmem
          rw [if_pos hmem] at hsurv
          exact Option.noConfusion hsurv
        have hold := hcomp p hpo
        have hsame : p.2.NetworkID ≠ id := by
          intro heq
          rw [heq] at hold
          exact hnotin hold
        rwa [Kv.get?_del_ne _ hsame]

/-- The allocation-list invariant holds in every reachable state. -/
theorem allocListInv_run (cmds : List Cmd) (s : RSMState) (hinv : allocListInv s) :
    allocListInv (applyAll cmds s) := by
  induction cmds generalizing s with
  | nil => exact hinv
  | cons c rest ih => exact ih _ (allocListInv_step c s hinv)

theorem filterMap_get?_map_id (allocs : Kv IPAllocation)
    (hid : ∀ p ∈ allocs, p.2.ID = p.1) (lst : List String) :
    (lst.filterMap (Kv.get? allocs)).map IPAllocation.ID =
      lst.filter (fun aid => (Kv.get? allocs aid).isSome) := by
  induction lst with
  | nil => rfl
  | cons aid rest ih =>
    cases hg : Kv.get? allocs aid with
    | none => simp [List.filterMap_cons, hg, ih, List.filter_cons]
    | some al =>
      have hida : al.ID = aid := hid (aid, al) (Kv.mem_of_get? hg)
      simp [List.filterMap_cons, hg, ih, List.filter_cons, hida]

/-- C10: in every reachable RSM state, the per-network allocation id list
is duplicate-free, so `list_allocations(network_id)` returns a list of
pairwise distinct allocations, and every currently stored allocation of
that network appears in it — exactly once, however many times it was
saved. -/
theorem c10_alloc_list_unique (cmds : List Cmd) (net : String) (cid nid : Nat)
    (l : List IPAllocation)
    (hl : RaftStore.ListAllocations net (applyAll cmds (newIPAMStateMachine cid nid)) =
      .ok l) :
    ((Kv.get? (applyAll cmds (newIPAMStateMachine cid nid)).allocationsByNet net).getD
      []).Nodup ∧
    (l.map IPAllocation.ID).Nodup ∧
    (∀ aid al,
      Kv.get? (applyAll cmds (newIPAMStateMachine cid nid)).allocations aid = some al →
      al.NetworkID = net → al ∈ l) := by
  have hinv0 : allocListInv (newIPAMStateMachine cid nid) := by
    refine ⟨List.nodup_nil, ?_, ?_, ?_⟩ <;> intro p hp <;> simp [newIPAMStateMachine] at hp
  obtain ⟨hnd, hid, hlnd, hcomp⟩ := allocListInv_run cmds _ hinv0
  have hres : l = ((Kv.get? (applyAll cmds (newIPAMStateMachine cid nid)).allocationsByNet
      net).getD []).filterMap
      (Kv.get? (applyAll cmds (newIPAMStateMachine cid nid)).allocations) := by
    have hcomput : RaftStore.ListAllocations net (applyAll cmds (newIPAMStateMachine cid nid)) =
        .ok (((Kv.get? (applyAll cmds (newIPAMStateMachine cid nid)).allocationsByNet
          net).getD []).filterMap
          (Kv.get? (applyAll cmds (newIPAMStateMachine cid nid)).allocations)) := rfl
    rw [hcomput] at hl
    exact (Except.ok.inj hl).symm
  have hlistnd : ((Kv.get? (applyAll cmds (newIPAMStateMachine cid nid)).allocationsByNet
      net).getD []).Nodup := by
    cases hq : Kv.get? (applyAll cmds (newIPAMStateMachine cid nid)).allocationsByNet net with
    | none => simp
    | some lst => simpa using hlnd (net, lst) (Kv.mem_of_get? hq)
  refine ⟨hlistnd, ?_, ?_⟩
  · rw [hres, filterMap_get?_map_id _ hid]
    exact List.Nodup.filter _ hlistnd
  · intro aid al hga hnet
    rw [hres]
    apply List.mem_filterMap.mpr
    refine ⟨aid, ?_, hga⟩
    have hmem := hcomp (aid, al) (Kv.mem_of_get? hga)
    rw [show (aid, al).2.NetworkID = net from hnet] at hmem
    exact hmem

/-- Witness for `c10_alloc_list_unique` at a concrete input: the same
allocation saved twice is listed once. -/
theorem c10_witness :
    ((Kv.get? (applyAll [.saveAllocation exAlloc, .saveAllocation exAlloc]
      (newIPAMStateMachine 1 1)).allocationsByNet "net1").getD []).Nodup ∧
    (([exAlloc].map IPAllocation.ID)).Nodup ∧
    (∀ aid al,
      Kv.get? (applyAll [.saveAllocation exAlloc, .saveAllocation exAlloc]
        (newIPAMStateMachine 1 1)).allocations aid = some al →
      al.NetworkID = "net1" → al ∈ [exAlloc]) :=
  c10_alloc_list_unique [.saveAllocation exAlloc, .saveAllocation exAlloc] "net1" 1 1
    [exAlloc] rfl

/-! ## C4: delete_network cascade -/

/-- C4 counterexample: after saving `alloc1` at IP .1, re-saving it at
IP .2, and deleting the network, the stale IP index entry for
(net1, 10.0.0.1) survives the cascade on both backends, even though the
network record is gone. -/
theorem c4_counterexample :
    Kv.get? c4CexR.allocationByIP (ipKey "net1" "10.0.0.1") = some "alloc1" ∧
    Kv.get? c4CexR.networks "net1" = none ∧
    Kv.get? c4CexP.ipIdx (ipKey "net1" "10.0.0.1") = some "alloc1" ∧
    Kv.get? c4CexP.networks "net1" = none := by
  decide

theorem list_sep_inj {c : Char} : ∀ {a1 a2 b1 b2 : List Char},
    a1 ++ c :: b1 = a2 ++ c :: b2 → c ∉ a1 → c ∉ a2 → a1 = a2 ∧ b1 = b2 := by
  intro a1
  induction a1 with
  | nil =>
    intro a2 b1 b2 h h1 h2
    cases a2 with
    | nil => simpa using h
    | cons x xs =>
      simp only [List.nil_append, List.cons_append, List.cons.injEq] at h
      exact absurd (by rw [h.1]; exact List.mem_cons_self x xs) h2
  | cons y ys ih =>
    intro a2 b1 b2 h h1 h2
    cases a2 with
    | nil =>
      simp only [List.nil_append, List.cons_append, List.cons.injEq] at h
      exact absurd (by rw [← h.1]; exact List.mem_cons_self y ys) h1
    | cons x xs =>
      simp only [List.cons_append, List.cons.injEq] at h
      obtain ⟨hyx, hrest⟩ := h
      have h1' : c ∉ ys := fun hm => h1 (List.mem_cons_of_mem _ hm)
      have h2' : c ∉ xs := fun hm => h2 (List.mem_cons_of_mem _ hm)
      obtain ⟨ha, hb⟩ := ih hrest h1' h2'
      exact ⟨by rw [hyx, ha], hb⟩

theorem ipKey_data (net ip : String) :
    (ipKey net ip).data = net.data ++ ':' :: ip.data := by
  rw [ipKey, String.data_append, String.data_append]
  simp

/-- The composite `network:ip` key determines its components when the
network ids are colon-free. -/
theorem ipKey_inj {n1 i1 n2 i2 : String} (h : ipKey n1 i1 = ipKey n2 i2)
    (h1 : (':' : Char) ∉ n1.data) (h2 : (':' : Char) ∉ n2.data) :
    n1 = n2 ∧ i1 = i2 := by
  have hd := congrArg String.data h
  rw [ipKey_data, ipKey_data] at hd
  obtain ⟨ha, hb⟩ := list_sep_inj hd h1 h2
  exact ⟨String.ext ha, String.ext hb⟩

theorem colonFree_spec {s : String} (h : colonFree s = true) :
    (':' : Char) ∉ s.data := by
  intro hmem
  simp only [colonFree, Bool.not_eq_true'] at h
  have h2 : s.data.contains ':' = true := by
    simpa [List.contains] using List.elem_eq_true_of_mem hmem
  rw [h2] at h
  exact Bool.noConfusion h

theorem cascadeDel_snd_subset (lst : List String) (allocs : Kv IPAllocation)
    (ipIdx : Kv String) (q : String × String)
    (h : q ∈ (cascadeDel lst allocs ipIdx).2) : q ∈ ipIdx := by
  induction lst generalizing allocs ipIdx with
  | nil => exact h
  | cons b rest ih =>
    cases hb : Kv.get? allocs b with
    | none =>
      simp only [cascadeDel, hb] at h
      exact ih _ _ h
    | some bl =>
      simp only [cascadeDel, hb] at h
      exact Kv.mem_of_mem_del (ih _ _ h)

theorem cascadeDel_snd_none (lst : List String) (allocs : Kv IPAllocation)
    (ipIdx : Kv String) (k : String) (h : Kv.get? ipIdx k = none) :
    Kv.get? (cascadeDel lst allocs ipIdx).2 k = none := by
  induction lst generalizing allocs ipIdx with
  | nil => exact h
  | cons b rest ih =>
    cases hb : Kv.get? allocs b with
    | none =>
      simp only [cascadeDel, hb]
      exact ih _ _ h
    | some bl =>
      simp only [cascadeDel, hb]
      apply ih
      by_cases hk : k = ipKey bl.NetworkID bl.IP
      · subst hk
        exact Kv.get?_del_self _ _
      · rw [Kv.get?_del_ne _ hk]
        exact h

theorem cascadeDel_snd_key : ∀ (lst : List String) (allocs : Kv IPAllocation)
    (ipIdx : Kv String) (aid : String) (al : IPAllocation),
    aid ∈ lst → Kv.get? allocs aid = some al →
    Kv.get? (cascadeDel lst allocs ipIdx).2 (ipKey al.NetworkID al.IP) = none := by
  intro lst
  induction lst with
  | nil =>
    intro allocs ipIdx aid al hin
    simp at hin
  | cons b rest ih =>
    intro allocs ipIdx aid al hin hal
    cases hb : Kv.get? allocs b with
    | none =>
      simp only [cascadeDel, hb]
      have hne : aid ≠ b := by
        rintro rfl
        rw [hal] at hb
        exact Option.noConfusion hb
      rcases List.mem_cons.mp hin with h1 | h1
      · exact absurd h1 hne
      · exact ih _ _ aid al h1 hal
    | some bl =>
      simp only [cascadeDel, hb]
      by_cases heq : aid = b
      · subst heq
        rw [hal] at hb
        have hbl : bl = al := (Option.some.inj hb).symm
        subst hbl
        exact cascadeDel_snd_none _ _ _ _ (Kv.get?_del_self _ _)
      · rcases List.mem_cons.mp hin with h1 | h1
        · exact absurd h1 heq
        · have hal' : Kv.get? (Kv.del allocs b) aid = some al := by
            rw [Kv.get?_del_ne _ heq]
            exact hal
          exact ih _ _ aid al h1 hal'

theorem ipFoldDel_subset (ks : List (String × IPAllocation)) (idx : Kv String)
    (q : String × String)
    (h : q ∈ ks.foldl (fun i r => Kv.del i (ipKey r.2.NetworkID r.2.IP)) idx) :
    q ∈ idx := by
  induction ks generalizing idx with
  | nil => exact h
  | cons r0 rest ih =>
    simp only [List.foldl_cons] at h
    exact Kv.mem_of_mem_del (ih _ h)

theorem ipFoldDel_none (ks : List (String × IPAllocation)) (idx : Kv String)
    (k : String) (h : Kv.get? idx k = none) :
    Kv.get? (ks.foldl (fun i r => Kv.del i (ipKey r.2.NetworkID r.2.IP)) idx) k = none := by
  induction ks generalizing idx with
  | nil => exact h
  | cons r0 rest ih =>
    simp only [List.foldl_cons]
    apply ih
    by_cases hk : k = ipKey r0.2.NetworkID r0.2.IP
    · subst hk
      exact Kv.get?_del_self _ _
    · rw [Kv.get?_del_ne _ hk]
      exact h

theorem ipFoldDel_mem (ks : List (String × IPAllocation)) (idx : Kv String)
    (r : String × IPAllocation) (hr : r ∈ ks) :
    Kv.get? (ks.foldl (fun i q => Kv.del i (ipKey q.2.NetworkID q.2.IP)) idx)
      (ipKey r.2.NetworkID r.2.IP) = none := by
  induction ks generalizing idx with
  | nil => simp at hr
  | cons r0 rest ih =>
    simp only [List.foldl_cons]
    rcases List.mem_cons.mp hr with rfl | hr'
    · exact ipFoldDel_none _ _ _ (Kv.get?_del_self _ _)
    · exact ih _ hr'

/-- C4 amended: provided every IP index entry points to a live
allocation whose current NetworkID:IP spells the entry's key (and, on
the RSM, is listed under its owning network), and network ids are
colon-free (so composite keys are unambiguous), deleting a stored
network leaves: an empty allocation listing for it, no network record,
no CIDR index entry for its CIDR, and no IP index entry keyed by
(id, ip) for any ip — on both backends.  Without the index-consistency
proviso the claim fails: re-saving an allocation with a changed IP
leaves a stale index entry that the cascade does not remove. -/
theorem c4_amended (S : RSMState) (P : PebbleState) (id ip : String)
    (nw nwp : Network)
    (hg : Kv.get? S.networks id = some nw)
    (hcons : ipIdxConsistentR S = true)
    (hcf : colonFree id = true)
    (hacf : S.allocations.all (fun p => colonFree p.2.NetworkID) = true)
    (hpg : Kv.get? P.networks id = some nwp)
    (hpcons : ipIdxConsistentP P = true)
    (hpacf : P.allocations.all (fun p => colonFree p.2.NetworkID) = true) :
    (RaftStore.ListAllocations id (applyEntry (.deleteNetwork id) S) = .ok [] ∧
     Kv.get? (applyEntry (.deleteNetwork id) S).networks id = none ∧
     Kv.get? (applyEntry (.deleteNetwork id) S).networkByCIDR nw.CIDR = none ∧
     Kv.get? (applyEntry (.deleteNetwork id) S).allocationByIP (ipKey id ip) = none) ∧
    (∀ P', PebbleStore.DeleteNetwork id P = .ok P' →
      PebbleStore.ListAllocations id P' = [] ∧
      Kv.get? P'.networks id = none ∧
      Kv.get? P'.cidrIdx nwp.CIDR = none ∧
      Kv.get? P'.ipIdx (ipKey id ip) = none) := by
  have hconsS : ∀ q ∈ S.allocationByIP, ∃ al,
      Kv.get? S.allocations q.2 = some al ∧ q.1 = ipKey al.NetworkID al.IP ∧
      q.2 ∈ (Kv.get? S.allocationsByNet al.NetworkID).getD [] := by
    intro q hq
    have hall := List.all_eq_true.mp hcons q hq
    cases hal : Kv.get? S.allocations q.2 with
    | none =>
      rw [hal] at hall
      exact absurd hall (by simp)
    | some al =>
      rw [hal] at hall
      simp only [Bool.and_eq_true, beq_iff_eq] at hall
      exact ⟨al, rfl, hall.1, List.mem_of_elem_eq_true hall.2⟩
  have hacfS : ∀ p ∈ S.allocations, (':' : Char) ∉ p.2.NetworkID.data := by
    intro p hp
    exact colonFree_spec (List.all_eq_true.mp hacf p hp)
  have hcfS : (':' : Char) ∉ id.data := colonFree_spec hcf
  constructor
  · rw [applyEntry_deleteNetwork_some S id nw hg]
    refine ⟨?_, Kv.get?_del_self _ _, Kv.get?_del_self _ _, ?_⟩
    · have hnone : Kv.get? (Kv.del S.allocationsByNet id) id = none :=
        Kv.get?_del_self _ _
      simp [RaftStore.ListAllocations, Lookup, hnone]
    · show Kv.get? (cascadeDel ((Kv.get? S.allocationsByNet id).getD [])
        S.allocations S.allocationByIP).2 (ipKey id ip) = none
      cases hW : Kv.get? (cascadeDel ((Kv.get? S.allocationsByNet id).getD [])
          S.allocations S.allocationByIP).2 (ipKey id ip) with
      | none => rfl
      | some aid =>
        exfalso
        have hmem := Kv.mem_of_get? hW
        have hidx := cascadeDel_snd_subset _ _ _ _ hmem
        obtain ⟨al, hal, hkey, hlst⟩ := hconsS _ hidx
        have hcfal : (':' : Char) ∉ al.NetworkID.data :=
          hacfS (aid, al) (Kv.mem_of_get? hal)
        obtain ⟨hneq, hieq⟩ := ipKey_inj hkey hcfS hcfal
        rw [← hneq] at hlst
        have hdel := cascadeDel_snd_key ((Kv.get? S.allocationsByNet id).getD [])
          S.allocations S.allocationByIP aid al hlst hal
        rw [← hneq, ← hieq] at hdel
        rw [hW] at hdel
        exact Option.noConfusion hdel
  · intro P' hP'
    rw [pebbleDeleteNetwork_some P id nwp hpg] at hP'
    have hPeq := Except.ok.inj hP'
    subst hPeq
    have hconsPp : ∀ q ∈ P.ipIdx, ∃ al,
        Kv.get? P.allocations q.2 = some al ∧ q.1 = ipKey al.NetworkID al.IP := by
      intro q hq
      have hall := List.all_eq_true.mp hpcons q hq
      cases hal : Kv.get? P.allocations q.2 with
      | none =>
        rw [hal] at hall
        exact absurd hall (by simp)
      | some al =>
        rw [hal] at hall
        simp only [beq_iff_eq] at hall
        exact ⟨al, rfl, hall⟩
    have hacfP : ∀ p ∈ P.allocations, (':' : Char) ∉ p.2.NetworkID.data := by
      intro p hp
      exact colonFree_spec (List.all_eq_true.mp hpacf p hp)
    refine ⟨?_, Kv.get?_del_self _ _, Kv.get?_del_self _ _, ?_⟩
    · show ((P.allocations.filter (fun q => !(q.2.NetworkID == id))).filter
        (fun q => q.2.NetworkID == id)).map (fun q => q.2) = []
      rw [List.filter_filter]
      have hnil : (P.allocations.filter
          (fun a => (a.2.NetworkID == id) && (!(a.2.NetworkID == id)))) = [] := by
        apply List.filter_eq_nil_iff.mpr
        intro q hq
        simp
      rw [hnil]
      rfl
    · show Kv.get? ((P.allocations.filter (fun q => q.2.NetworkID == id)).foldl
        (fun idx q => Kv.del idx (ipKey q.2.NetworkID q.2.IP)) P.ipIdx)
        (ipKey id ip) = none
      cases hW : Kv.get? ((P.allocations.filter (fun q => q.2.NetworkID == id)).foldl
          (fun idx q => Kv.del idx (ipKey q.2.NetworkID q.2.IP)) P.ipIdx)
          (ipKey id ip) with
      | none => rfl
      | some aid =>
        exfalso
        have hmem := Kv.mem_of_get? hW
        have hidx := ipFoldDel_subset _ _ _ hmem
        obtain ⟨al, hal, hkey⟩ := hconsPp _ hidx
        have hcfal : (':' : Char) ∉ al.NetworkID.data :=
          hacfP (aid, al) (Kv.mem_of_get? hal)
        obtain ⟨hneq, hieq⟩ := ipKey_inj hkey hcfS hcfal
        have hown : (aid, al) ∈ P.allocations.filter (fun q => q.2.NetworkID == id) := by
          apply List.mem_filter.mpr
          refine ⟨Kv.mem_of_get? hal, ?_⟩
        -- al.NetworkID = id from hneq
          simp [← hneq]
        have hdel := ipFoldDel_mem (P.allocations.filter (fun q => q.2.NetworkID == id))
          P.ipIdx (aid, al) hown
        rw [show ipKey (aid, al).2.NetworkID (aid, al).2.IP = ipKey id ip from by
          rw [← hneq, ← hieq]] at hdel
        rw [hW] at hdel
        exact Option.noConfusion hdel

/-- Witness for `c4_amended` at a concrete input: one network with one
allocation, then a cascade delete. -/
theorem c4_witness :
    (RaftStore.ListAllocations "net1"
        (applyEntry (.deleteNetwork "net1")
          (raftRun (newIPAMStateMachine 1 1) [.saveNetwork exNet, .saveAllocation exAlloc]).2) =
        .ok [] ∧
      Kv.get? (applyEntry (.deleteNetwork "net1")
        (raftRun (newIPAMStateMachine 1 1) [.saveNetwork exNet, .saveAllocation exAlloc]).2).networks
        "net1" = none ∧
      Kv.get? (applyEntry (.deleteNetwork "net1")
        (raftRun (newIPAMStateMachine 1 1) [.saveNetwork exNet, .saveAllocation exAlloc]).2).networkByCIDR
        exNet.CIDR = none ∧
      Kv.get? (applyEntry (.deleteNetwork "net1")
        (raftRun (newIPAMStateMachine 1 1) [.saveNetwork exNet, .saveAllocation exAlloc]).2).allocationByIP
        (ipKey "net1" "10.0.0.1") = none) ∧
    (∀ P', PebbleStore.DeleteNetwork "net1"
        (pebbleRun emptyPebble [.saveNetwork exNet, .saveAllocation exAlloc]).2 = .ok P' →
      PebbleStore.ListAllocations "net1" P' = [] ∧
      Kv.get? P'.networks "net1" = none ∧
      Kv.get? P'.cidrIdx exNet.CIDR = none ∧
      Kv.get? P'.ipIdx (ipKey "net1" "10.0.0.1") = none) :=
  c4_amended
    (raftRun (newIPAMStateMachine 1 1) [.saveNetwork exNet, .saveAllocation exAlloc]).2
    (pebbleRun emptyPebble [.saveNetwork exNet, .saveAllocation exAlloc]).2
    "net1" "10.0.0.1" exNet exNet
    (by decide) (by decide) (by decide) (by decide) (by decide) (by decide) (by decide)

/-! ## C1: backend equivalence — supporting lemmas -/

theorem kv_set_eq_append {l : Kv α} {k : String} (v : α)
    (h : Kv.get? l k = none) : Kv.set l k v = l ++ [(k, v)] := by
  induction l with
  | nil => rfl
  | cons p rest ih =>
    rw [Kv.get?] at h
    by_cases hp : p.1 = k
    · simp [hp] at h
    · rw [if_neg (by simpa using hp)] at h
      rw [Kv.set, if_neg (by simpa using hp), ih h, List.cons_append]

theorem kv_del_eq_filter (l : Kv α) (k : String) :
    Kv.del l k = l.filter (fun p => !(p.1 == k)) := by
  induction l with
  | nil => rfl
  | cons p rest ih =>
    by_cases hp : p.1 = k
    · rw [Kv.del, if_pos (by simpa using hp), ih, List.filter_cons,
        if_neg (by simp [hp])]
    · rw [Kv.del, if_neg (by simpa using hp), ih, List.filter_cons,
        if_pos (by simpa using hp)]

theorem kv_nodupKeys_filter {l : Kv α} (P : String × α → Bool)
    (h : Kv.NodupKeys l) : Kv.NodupKeys (l.filter P) :=
  List.Nodup.sublist (List.Sublist.map _ (List.filter_sublist l)) h

theorem kv_mem_unique {l : Kv α} {p q : String × α} (hnd : Kv.NodupKeys l)
    (hp : p ∈ l) (hq : q ∈ l) (hk : p.1 = q.1) : p = q := by
  have h1 : Kv.get? l p.1 = some p.2 :=
    Kv.get?_eq_some_of_mem hnd (by simpa using hp)
  have h2 : Kv.get? l q.1 = some q.2 :=
    Kv.get?_eq_some_of_mem hnd (by simpa using hq)
  rw [hk] at h1
  have := Option.some.inj (h1.symm.trans h2)
  exact Prod.ext_iff.mpr ⟨hk, this⟩

/-- Replacing a record in place does not change the keys of any
`NetworkID`-filtered projection, as long as old and new record fall on
the same side of the filter. -/
theorem filter_map_fst_set_replace (l : Kv IPAllocation) (k : String)
    (v old : IPAllocation) (net : String)
    (hold : Kv.get? l k = some old)
    (hc : (old.NetworkID == net) = (v.NetworkID == net)) :
    ((Kv.set l k v).filter (fun p => p.2.NetworkID == net)).map (fun p => p.1) =
      (l.filter (fun p => p.2.NetworkID == net)).map (fun p => p.1) := by
  induction l with
  | nil => simp [Kv.get?] at hold
  | cons p rest ih =>
    rw [Kv.get?] at hold
    by_cases hp : p.1 = k
    · rw [if_pos (by simpa using hp)] at hold
      have hpv : p.2 = old := Option.some.inj hold
      rw [Kv.set, if_pos (by simpa using hp), List.filter_cons, List.filter_cons]
      by_cases hl : (v.NetworkID == net) = true
      · rw [if_pos (by simpa using hl), if_pos (by rw [hpv]; rw [hc]; exact hl)]
        simp [hp]
      · rw [if_neg (by simpa using hl), if_neg (by rw [hpv, hc]; simpa using hl)]
    · rw [if_neg (by simpa using hp)] at hold
      rw [Kv.set, if_neg (by simpa using hp), List.filter_cons, List.filter_cons]
      by_cases hl : (p.2.NetworkID == net) = true
      · rw [if_pos hl, if_pos hl]
        simp only [List.map_cons]
        rw [ih hold]
      · rw [if_neg (by simpa using hl), if_neg (by simpa using hl), ih hold]

/-- Deleting a key commutes with taking the keys of a filtered
projection. -/
theorem map_fst_filter_del (l : Kv IPAllocation) (id : String)
    (P : String × IPAllocation → Bool) :
    ((Kv.del l id).filter P).map (fun p => p.1) =
      (((l.filter P).map (fun p => p.1)).filter (fun x => !(x == id))) := by
  induction l with
  | nil => rfl
  | cons p rest ih =>
    by_cases hp : p.1 = id
    · rw [Kv.del, if_pos (by simpa using hp), List.filter_cons]
      by_cases hP : P p = true
      · rw [if_pos hP]
        simp only [List.map_cons, List.filter_cons]
        rw [if_neg (by simp [hp]), ih]
      · rw [if_neg (by simpa using hP), ih]
    · rw [Kv.del, if_neg (by simpa using hp), List.filter_cons, List.filter_cons]
      by_cases hP : P p = true
      · rw [if_pos hP, if_pos hP]
        simp only [List.map_cons, List.filter_cons]
        rw [if_pos (by simpa using hp), ih]
      · rw [if_neg (by simpa using hP), if_neg (by simpa using hP), ih]

/-- The record half of the cascade is a key-set filter. -/
theorem cascadeDel_fst_eq_filter : ∀ (lst : List String) (l : Kv IPAllocation)
    (idx : Kv String),
    (cascadeDel lst l idx).1 = l.filter (fun p => !(lst.contains p.1)) := by
  intro lst
  induction lst with
  | nil =>
    intro l idx
    simp [cascadeDel]
  | cons b rest ih =>
    intro l idx
    cases hb : Kv.get? l b with
    | none =>
      simp only [cascadeDel, hb]
      rw [ih]
      apply List.filter_congr
      intro p hp
      have hpb : p.1 ≠ b := by
        intro heq
        have : b ∈ Kv.keys l := List.mem_map.mpr ⟨p, hp, heq⟩
        exact (Kv.get?_eq_none_iff.mp hb) this
      simp [List.contains, List.elem_cons, hpb]
    | some bl =>
      simp only [cascadeDel, hb]
      rw [ih, kv_del_eq_filter, List.filter_filter]
      apply List.filter_congr
      intro p hp
      by_cases hpb : p.1 = b
      · simp [List.contains, List.elem_cons, hpb]
      · simp [List.contains, List.elem_cons, hpb]

/-- The index half of the cascade coincides with the Pebble fold when
the id list is the key list of the owned records. -/
theorem cascadeDel_snd_eq_foldl : ∀ (owned : List (String × IPAllocation))
    (l : Kv IPAllocation) (idx : Kv String),
    (∀ q ∈ owned, Kv.get? l q.1 = some q.2) →
    (owned.map (fun p => p.1)).Nodup →
    (cascadeDel (owned.map (fun p => p.1)) l idx).2 =
      owned.foldl (fun i q => Kv.del i (ipKey q.2.NetworkID q.2.IP)) idx := by
  intro owned
  induction owned with
  | nil =>
    intro l idx _ _
    rfl
  | cons q0 rest ih =>
    intro l idx hget hnd
    have hq0 : Kv.get? l q0.1 = some q0.2 := hget q0 (List.mem_cons_self _ _)
    simp only [List.map_cons, cascadeDel, hq0, List.foldl_cons]
    apply ih
    · intro q hq
      have hne : q.1 ≠ q0.1 := by
        intro heq
        have h1 : q0.1 ∉ rest.map (fun p => p.1) := (List.nodup_cons.mp hnd).1
        exact h1 (heq ▸ List.mem_map.mpr ⟨q, hq, rfl⟩)
      rw [Kv.get?_del_ne _ hne]
      exact hget q (List.mem_cons_of_mem _ hq)
    · exact (List.nodup_cons.mp hnd).2

/-- Under unique keys, a stored record's key appears among the keys of a
filtered projection exactly when the record passes the filter. -/
theorem mem_map_fst_filter_iff {l : Kv IPAllocation} {p : String × IPAllocation}
    (hnd : Kv.NodupKeys l) (hp : p ∈ l) (Q : String × IPAllocation → Bool) :
    p.1 ∈ (l.filter Q).map (fun q => q.1) ↔ Q p = true := by
  constructor
  · intro hmem
    obtain ⟨q, hqf, hqk⟩ := List.mem_map.mp hmem
    obtain ⟨hql, hqQ⟩ := List.mem_filter.mp hqf
    have : q = p := kv_mem_unique hnd hql hp hqk
    rw [← this]
    exact hqQ
  · intro hQ
    exact List.mem_map.mpr ⟨p, List.mem_filter.mpr ⟨hp, hQ⟩, rfl⟩

/-- Looking each key of a record list back up recovers the records. -/
theorem filterMap_get?_sub (l : Kv IPAllocation) :
    ∀ (sub : List (String × IPAllocation)),
    (∀ q ∈ sub, Kv.get? l q.1 = some q.2) →
    (sub.map (fun p => p.1)).filterMap (Kv.get? l) = sub.map (fun p => p.2) := by
  intro sub
  induction sub with
  | nil => intro _; rfl
  | cons q rest ih =>
    intro hget
    have hq := hget q (List.mem_cons_self _ _)
    simp only [List.map_cons, List.filterMap_cons, hq]
    rw [ih (fun r hr => hget r (List.mem_cons_of_mem _ hr))]

theorem resRel_refl (r : OpResult) : resRel r r := by
  cases r with
  | networks l => exact List.Perm.refl l
  | allocations l => exact List.Perm.refl l
  | ok => rfl
  | network n => rfl
  | allocation a => rfl
  | audits l => rfl
  | err e => rfl

theorem storeRel_saveNetwork (P : PebbleState) (S : RSMState) (n : Network)
    (hrel : StoreRel P S) :
    (pebbleOp P (.saveNetwork n)).1 = (raftOp S (.saveNetwork n)).1 ∧
    StoreRel (pebbleOp P (.saveNetwork n)).2 (raftOp S (.saveNetwork n)).2 := by
  obtain ⟨h1, h2, h3, h4, h5, h6, h7⟩ := hrel
  refine ⟨rfl, ?_, ?_, h3, h4, h5, h6, h7⟩
  · show Kv.set P.networks n.ID n = Kv.set S.networks n.ID n
    rw [h1]
  · show Kv.set P.cidrIdx n.CIDR n.ID = Kv.set S.networkByCIDR n.CIDR n.ID
    rw [h2]

theorem storeRel_saveAudit (P : PebbleState) (S : RSMState) (e : AuditEntry)
    (hrel : StoreRel P S) (hv : opValid S (.saveAudit e) = true) :
    (pebbleOp P (.saveAudit e)).1 = (raftOp S (.saveAudit e)).1 ∧
    StoreRel (pebbleOp P (.saveAudit e)).2 (raftOp S (.saveAudit e)).2 := by
  obtain ⟨h1, h2, h3, h4, h5, h6, h7⟩ := hrel
  simp only [opValid, Bool.and_eq_true, decide_eq_true_eq] at hv
  obtain ⟨hlen, hall⟩ := hv
  have htr : truncAudit (S.audit ++ [e]) = S.audit ++ [e] := by
    unfold truncAudit
    rw [if_neg]
    simp only [List.length_append, List.length_singleton]
    omega
  have hmax : ∀ p ∈ P.audit, strLt p.1 (auditKey e) = true := by
    intro p hp
    rw [h5] at hp
    obtain ⟨e0, he0, rfl⟩ := List.mem_map.mp hp
    exact List.all_eq_true.mp hall e0 he0
  refine ⟨rfl, h1, h2, h3, h4, ?_, h6, h7⟩
  show Kv.setSorted P.audit (auditKey e) e =
    (truncAudit (S.audit ++ [e])).map (fun e0 => (auditKey e0, e0))
  rw [setSorted_append_max P.audit (auditKey e) e hmax, htr, List.map_append, h5]
  rfl

theorem storeRel_saveAllocation (P : PebbleState) (S : RSMState) (a : IPAllocation)
    (hrel : StoreRel P S) (hv : opValid S (.saveAllocation a) = true) :
    (pebbleOp P (.saveAllocation a)).1 = (raftOp S (.saveAllocation a)).1 ∧
    StoreRel (pebbleOp P (.saveAllocation a)).2 (raftOp S (.saveAllocation a)).2 := by
  obtain ⟨h1, h2, h3, h4, h5, h6, h7⟩ := hrel
  refine ⟨rfl, h1, h2, ?_, ?_, h5, ?_, ?_⟩
  · show Kv.set P.allocations a.ID a = Kv.set S.allocations a.ID a
    rw [h3]
  · show Kv.set P.ipIdx (ipKey a.NetworkID a.IP) a.ID =
      Kv.set S.allocationByIP (ipKey a.NetworkID a.IP) a.ID
    rw [h4]
  · show Kv.NodupKeys (Kv.set S.allocations a.ID a)
    exact Kv.nodupKeys_set h6 a.ID a
  · intro net
    show (Kv.get? (Kv.set S.allocationsByNet a.NetworkID
        (if ((Kv.get? S.allocationsByNet a.NetworkID).getD []).contains a.ID
         then (Kv.get? S.allocationsByNet a.NetworkID).getD []
         else ((Kv.get? S.allocationsByNet a.NetworkID).getD []) ++ [a.ID])) net).getD [] =
      ((Kv.set S.allocations a.ID a).filter
        (fun p => p.2.NetworkID == net)).map (fun p => p.1)
    by_cases hnet : net = a.NetworkID
    · subst hnet
      rw [Kv.get?_set_self, Option.getD_some]
      cases hold : Kv.get? S.allocations a.ID with
      | none =>
        have hnotmem : a.ID ∉ (S.allocations.filter
            (fun p => p.2.NetworkID == a.NetworkID)).map (fun p => p.1) := by
          intro hmem
          obtain ⟨q, hq, hqk⟩ := List.mem_map.mp hmem
          have hql := (List.mem_filter.mp hq).1
          have hqg : Kv.get? S.allocations q.1 = some q.2 :=
            Kv.get?_eq_some_of_mem h6 (by simpa using hql)
          rw [hqk, hold] at hqg
          exact Option.noConfusion hqg
        have hcont : ((S.allocations.filter
            (fun p => p.2.NetworkID == a.NetworkID)).map
              (fun p => p.1)).contains a.ID = false := by
          by_contra hc
          rw [Bool.not_eq_false] at hc
          exact hnotmem (List.mem_of_elem_eq_true (by simpa [List.contains] using hc))
        rw [h7, if_neg (by rw [hcont]; exact Bool.false_ne_true)]
        rw [kv_set_eq_append a hold, List.filter_append, List.map_append]
        simp [List.filter_cons]
      | some old =>
        have hsame : old.NetworkID = a.NetworkID := by
          simp only [opValid, hold] at hv
          simpa using hv
        have hmem : a.ID ∈ (S.allocations.filter
            (fun p => p.2.NetworkID == a.NetworkID)).map (fun p => p.1) :=
          (mem_map_fst_filter_iff h6 (Kv.mem_of_get? hold) _).mpr (by simp [hsame])
        rw [h7, if_pos (List.elem_eq_true_of_mem hmem)]
        rw [filter_map_fst_set_replace S.allocations a.ID a old a.NetworkID hold
          (by rw [hsame])]
    · rw [Kv.get?_set_ne S.allocationsByNet _ hnet, h7]
      cases hold : Kv.get? S.allocations a.ID with
      | none =>
        rw [kv_set_eq_append a hold, List.filter_append, List.map_append]
        have hne2 : (a.NetworkID == net) = false := by
          simp only [beq_eq_false_iff_ne, ne_eq]
          intro h
          exact hnet h.symm
        simp [List.filter_cons, hne2]
      | some old =>
        have hsame : old.NetworkID = a.NetworkID := by
          simp only [opValid, hold] at hv
          simpa using hv
        rw [filter_map_fst_set_replace S.allocations a.ID a old net hold
          (by rw [hsame])]

theorem storeRel_deleteAllocation (P : PebbleState) (S : RSMState) (id : String)
    (hrel : StoreRel P S) (hv : opValid S (.deleteAllocation id) = true) :
    (pebbleOp P (.deleteAllocation id)).1 = (raftOp S (.deleteAllocation id)).1 ∧
    StoreRel (pebbleOp P (.deleteAllocation id)).2 (raftOp S (.deleteAllocation id)).2 := by
  obtain ⟨h1, h2, h3, h4, h5, h6, h7⟩ := hrel
  simp only [opValid, Option.isSome_iff_exists] at hv
  obtain ⟨al, hal⟩ := hv
  have hpal : Kv.get? P.allocations id = some al := by rw [h3]; exact hal
  have hpd : PebbleStore.DeleteAllocation id P = .ok { P with
      allocations := Kv.del P.allocations id
      ipIdx := Kv.del P.ipIdx (ipKey al.NetworkID al.IP) } := by
    simp [PebbleStore.DeleteAllocation, PebbleStore.GetAllocation, hpal]
  have hpo : pebbleOp P (.deleteAllocation id) = (.ok, { P with
      allocations := Kv.del P.allocations id
      ipIdx := Kv.del P.ipIdx (ipKey al.NetworkID al.IP) }) := by
    simp only [pebbleOp, hpd]
  have hro : raftOp S (.deleteAllocation id) =
      (.ok, applyEntry (.deleteAllocation id) S) := rfl
  have hlmem : id ∈ (Kv.get? S.allocationsByNet al.NetworkID).getD [] := by
    rw [h7]
    exact List.mem_map.mpr
      ⟨(id, al), List.mem_filter.mpr ⟨Kv.mem_of_get? hal, by simp⟩, rfl⟩
  cases hlst : Kv.get? S.allocationsByNet al.NetworkID with
  | none =>
    rw [hlst] at hlmem
    simp at hlmem
  | some lst =>
    rw [hpo, hro, applyEntry_deleteAllocation_some_some S id al lst hal hlst]
    refine ⟨rfl, h1, h2, ?_, ?_, h5, ?_, ?_⟩
    · show Kv.del P.allocations id = Kv.del S.allocations id
      rw [h3]
    · show Kv.del P.ipIdx (ipKey al.NetworkID al.IP) =
        Kv.del S.allocationByIP (ipKey al.NetworkID al.IP)
      rw [h4]
    · show Kv.NodupKeys (Kv.del S.allocations id)
      exact Kv.nodupKeys_del id h6
    · intro net
      show (Kv.get? (Kv.set S.allocationsByNet al.NetworkID
          (lst.filter (fun x => !(x == id)))) net).getD [] =
        ((Kv.del S.allocations id).filter
          (fun p => p.2.NetworkID == net)).map (fun p => p.1)
      by_cases hnet : net = al.NetworkID
      · subst hnet
        rw [Kv.get?_set_self, Option.getD_some, map_fst_filter_del]
        have hlsteq : lst = (S.allocations.filter
            (fun p => p.2.NetworkID == al.NetworkID)).map (fun p => p.1) := by
          have h := h7 al.NetworkID
          rw [hlst, Option.getD_some] at h
          exact h
        rw [← hlsteq]
      · rw [Kv.get?_set_ne S.allocationsByNet _ hnet, h7, map_fst_filter_del]
        symm
        apply List.filter_eq_self.mpr
        intro x hx
        obtain ⟨q, hq, hqk⟩ := List.mem_map.mp hx
        obtain ⟨hql, hqQ⟩ := List.mem_filter.mp hq
        have hxid : x ≠ id := by
          intro hxeq
          subst hxeq
          have hqg : Kv.get? S.allocations q.1 = some q.2 :=
            Kv.get?_eq_some_of_mem h6 (by simpa using hql)
          rw [hqk] at hqg
          have hq2 : q.2 = al := Option.some.inj (hqg.symm.trans hal)
          rw [hq2] at hqQ
          have : al.NetworkID = net := by simpa using hqQ
          exact hnet this.symm
        simp [hxid]

theorem storeRel_deleteNetwork (P : PebbleState) (S : RSMState) (id : String)
    (hrel : StoreRel P S) (hv : opValid S (.deleteNetwork id) = true) :
    (pebbleOp P (.deleteNetwork id)).1 = (raftOp S (.deleteNetwork id)).1 ∧
    StoreRel (pebbleOp P (.deleteNetwork id)).2 (raftOp S (.deleteNetwork id)).2 := by
  obtain ⟨h1, h2, h3, h4, h5, h6, h7⟩ := hrel
  simp only [opValid, Option.isSome_iff_exists] at hv
  obtain ⟨nw, hnw⟩ := hv
  have hpg : Kv.get? P.networks id = some nw := by rw [h1]; exact hnw
  have hpo : pebbleOp P (.deleteNetwork id) = (.ok, { P with
      networks := Kv.del P.networks id
      cidrIdx := Kv.del P.cidrIdx nw.CIDR
      allocations := P.allocations.filter (fun q => !(q.2.NetworkID == id))
      ipIdx := (P.allocations.filter (fun q => q.2.NetworkID == id)).foldl
        (fun idx q => Kv.del idx (ipKey q.2.NetworkID q.2.IP)) P.ipIdx }) := by
    simp only [pebbleOp, pebbleDeleteNetwork_some P id nw hpg]
  have hro : raftOp S (.deleteNetwork id) =
      (.ok, applyEntry (.deleteNetwork id) S) := rfl
  rw [hpo, hro, applyEntry_deleteNetwork_some S id nw hnw]
  have hAeq : S.allocations.filter
      (fun p => !(((Kv.get? S.allocationsByNet id).getD []).contains p.1)) =
      S.allocations.filter (fun p => !(p.2.NetworkID == id)) := by
    apply List.filter_congr
    intro p hp
    have hiff := mem_map_fst_filter_iff h6 hp (fun q => q.2.NetworkID == id)
    have hc : (((S.allocations.filter (fun q => q.2.NetworkID == id)).map
        (fun q => q.1)).contains p.1) = (p.2.NetworkID == id) := by
      rw [Bool.eq_iff_iff]
      constructor
      · intro hcc
        exact hiff.mp (List.mem_of_elem_eq_true (by simpa [List.contains] using hcc))
      · intro hB
        simpa [List.contains] using List.elem_eq_true_of_mem (hiff.mpr hB)
    rw [h7 id, hc]
  refine ⟨rfl, ?_, ?_, ?_, ?_, h5, ?_, ?_⟩
  · show Kv.del P.networks id = Kv.del S.networks id
    rw [h1]
  · show Kv.del P.cidrIdx nw.CIDR = Kv.del S.networkByCIDR nw.CIDR
    rw [h2]
  · show P.allocations.filter (fun q => !(q.2.NetworkID == id)) =
      (cascadeDel ((Kv.get? S.allocationsByNet id).getD [])
        S.allocations S.allocationByIP).1
    rw [h3, cascadeDel_fst_eq_filter, hAeq]
  · show (P.allocations.filter (fun q => q.2.NetworkID == id)).foldl
        (fun idx q => Kv.del idx (ipKey q.2.NetworkID q.2.IP)) P.ipIdx =
      (cascadeDel ((Kv.get? S.allocationsByNet id).getD [])
        S.allocations S.allocationByIP).2
    have hlive : ∀ q ∈ S.allocations.filter (fun q => q.2.NetworkID == id),
        Kv.get? S.allocations q.1 = some q.2 := by
      intro q hq
      exact Kv.get?_eq_some_of_mem h6 (by simpa using (List.mem_filter.mp hq).1)
    have hndk : ((S.allocations.filter (fun q => q.2.NetworkID == id)).map
        (fun p => p.1)).Nodup := kv_nodupKeys_filter _ h6
    rw [h3, h4, h7,
      cascadeDel_snd_eq_foldl _ S.allocations S.allocationByIP hlive hndk]
  · show Kv.NodupKeys (cascadeDel ((Kv.get? S.allocationsByNet id).getD [])
      S.allocations S.allocationByIP).1
    rw [cascadeDel_fst_eq_filter]
    exact kv_nodupKeys_filter _ h6
  · intro net
    show (Kv.get? (Kv.del S.allocationsByNet id) net).getD [] =
      ((cascadeDel ((Kv.get? S.allocationsByNet id).getD [])
        S.allocations S.allocationByIP).1.filter
          (fun p => p.2.NetworkID == net)).map (fun p => p.1)
    rw [cascadeDel_fst_eq_filter, hAeq]
    by_cases hnet : net = id
    · subst hnet
      rw [Kv.get?_del_self]
      show ([] : List String) = _
      symm
      rw [List.map_eq_nil_iff, List.filter_filter]
      apply List.filter_eq_nil_iff.mpr
      intro a ha
      simp
    · rw [Kv.get?_del_ne _ hnet, h7, List.filter_filter]
      congr 1
      apply List.filter_congr
      intro p hp
      by_cases hB : (p.2.NetworkID == net) = true
      · have hpn : p.2.NetworkID = net := by simpa using hB
        have hBi : (p.2.NetworkID == id) = false := by
          simp only [beq_eq_false_iff_ne, ne_eq]
          rw [hpn]
          exact hnet
        simp [hB, hBi]
      · have hB' : (p.2.NetworkID == net) = false := Bool.eq_false_iff.mpr hB
        simp [hB']

theorem storeRel_step (P : PebbleState) (S : RSMState) (op : Op)
    (hrel : StoreRel P S) (hv : opValid S op = true) :
    (pebbleOp P op).1 = (raftOp S op).1 ∧
    StoreRel (pebbleOp P op).2 (raftOp S op).2 := by
  cases op with
  | saveNetwork n => exact storeRel_saveNetwork P S n hrel
  | saveAllocation a => exact storeRel_saveAllocation P S a hrel hv
  | deleteNetwork id => exact storeRel_deleteNetwork P S id hrel hv
  | deleteAllocation id => exact storeRel_deleteAllocation P S id hrel hv
  | saveAudit e => exact storeRel_saveAudit P S e hrel hv
  | getNetwork id =>
    obtain ⟨h1, h2, h3, h4, h5, h6, h7⟩ := hrel
    simp only [opValid, Option.isSome_iff_exists] at hv
    obtain ⟨n, hn⟩ := hv
    have hpn : Kv.get? P.networks id = some n := by rw [h1]; exact hn
    have hpo : pebbleOp P (.getNetwork id) = (.network (some n), P) := by
      simp [pebbleOp, PebbleStore.GetNetwork, hpn]
    have hro : raftOp S (.getNetwork id) = (.network (some n), S) := by
      simp [raftOp, RaftStore.GetNetwork, Lookup, hn]
    rw [hpo, hro]
    exact ⟨rfl, h1, h2, h3, h4, h5, h6, h7⟩
  | getNetworkByCIDR c =>
    obtain ⟨h1, h2, h3, h4, h5, h6, h7⟩ := hrel
    cases hc : Kv.get? S.networkByCIDR c with
    | none =>
      have hpc : Kv.get? P.cidrIdx c = none := by rw [h2]; exact hc
      have hpo : pebbleOp P (.getNetworkByCIDR c) = (.err .networkNotFound, P) := by
        simp [pebbleOp, PebbleStore.GetNetworkByCIDR, hpc]
      have hro : raftOp S (.getNetworkByCIDR c) = (.err .networkNotFound, S) := by
        simp [raftOp, RaftStore.GetNetworkByCIDR, Lookup, hc]
      rw [hpo, hro]
      exact ⟨rfl, h1, h2, h3, h4, h5, h6, h7⟩
    | some nid =>
      simp only [opValid, hc, Option.isSome_iff_exists] at hv
      obtain ⟨m, hm⟩ := hv
      have hpc : Kv.get? P.cidrIdx c = some nid := by rw [h2]; exact hc
      have hpm : Kv.get? P.networks nid = some m := by rw [h1]; exact hm
      have hpo : pebbleOp P (.getNetworkByCIDR c) = (.network (some m), P) := by
        simp [pebbleOp, PebbleStore.GetNetworkByCIDR, PebbleStore.GetNetwork, hpc, hpm]
      have hro : raftOp S (.getNetworkByCIDR c) = (.network (some m), S) := by
        simp [raftOp, RaftStore.GetNetworkByCIDR, Lookup, hc, hm]
      rw [hpo, hro]
      exact ⟨rfl, h1, h2, h3, h4, h5, h6, h7⟩
  | listNetworks =>
    obtain ⟨h1, h2, h3, h4, h5, h6, h7⟩ := hrel
    have hpo : pebbleOp P .listNetworks =
        (.networks (Kv.values P.networks), P) := rfl
    have hro : raftOp S .listNetworks =
        (.networks (Kv.values S.networks), S) := rfl
    rw [hpo, hro, h1]
    exact ⟨rfl, h1, h2, h3, h4, h5, h6, h7⟩
  | getAllocation id =>
    obtain ⟨h1, h2, h3, h4, h5, h6, h7⟩ := hrel
    simp only [opValid, Option.isSome_iff_exists] at hv
    obtain ⟨al, hal⟩ := hv
    have hpal : Kv.get? P.allocations id = some al := by rw [h3]; exact hal
    have hpo : pebbleOp P (.getAllocation id) = (.allocation (some al), P) := by
      simp [pebbleOp, PebbleStore.GetAllocation, hpal]
    have hro : raftOp S (.getAllocation id) = (.allocation (some al), S) := by
      simp [raftOp, RaftStore.GetAllocation, Lookup, hal]
    rw [hpo, hro]
    exact ⟨rfl, h1, h2, h3, h4, h5, h6, h7⟩
  | getAllocationByIP net ip =>
    obtain ⟨h1, h2, h3, h4, h5, h6, h7⟩ := hrel
    cases hc : Kv.get? S.allocationByIP (ipKey net ip) with
    | none =>
      have hpc : Kv.get? P.ipIdx (ipKey net ip) = none := by rw [h4]; exact hc
      have hpo : pebbleOp P (.getAllocationByIP net ip) =
          (.err .ipNotAllocated, P) := by
        simp [pebbleOp, PebbleStore.GetAllocationByIP, hpc]
      have hro : raftOp S (.getAllocationByIP net ip) =
          (.err .ipNotAllocated, S) := by
        simp [raftOp, RaftStore.GetAllocationByIP, Lookup, hc]
      rw [hpo, hro]
      exact ⟨rfl, h1, h2, h3, h4, h5, h6, h7⟩
    | some aid =>
      simp only [opValid, hc, Option.isSome_iff_exists] at hv
      obtain ⟨al, hal⟩ := hv
      have hpc : Kv.get? P.ipIdx (ipKey net ip) = some aid := by rw [h4]; exact hc
      have hpal : Kv.get? P.allocations aid = some al := by rw [h3]; exact hal
      have hpo : pebbleOp P (.getAllocationByIP net ip) =
          (.allocation (some al), P) := by
        simp [pebbleOp, PebbleStore.GetAllocationByIP, PebbleStore.GetAllocation,
          hpc, hpal]
      have hro : raftOp S (.getAllocationByIP net ip) =
          (.allocation (some al), S) := by
        simp [raftOp, RaftStore.GetAllocationByIP, Lookup, hc, hal]
      rw [hpo, hro]
      exact ⟨rfl, h1, h2, h3, h4, h5, h6, h7⟩
  | listAllocations net =>
    obtain ⟨h1, h2, h3, h4, h5, h6, h7⟩ := hrel
    have hpo : pebbleOp P (.listAllocations net) =
        (.allocations ((P.allocations.filter
          (fun p => p.2.NetworkID == net)).map (fun p => p.2)), P) := rfl
    have hro : raftOp S (.listAllocations net) =
        (.allocations (((Kv.get? S.allocationsByNet net).getD []).filterMap
          (Kv.get? S.allocations)), S) := rfl
    rw [hpo, hro]
    refine ⟨?_, h1, h2, h3, h4, h5, h6, h7⟩
    show OpResult.allocations ((P.allocations.filter
        (fun p => p.2.NetworkID == net)).map (fun p => p.2)) =
      OpResult.allocations (((Kv.get? S.allocationsByNet net).getD []).filterMap
        (Kv.get? S.allocations))
    have hsub : ∀ q ∈ S.allocations.filter (fun p => p.2.NetworkID == net),
        Kv.get? S.allocations q.1 = some q.2 := by
      intro q hq
      exact Kv.get?_eq_some_of_mem h6 (by simpa using (List.mem_filter.mp hq).1)
    rw [h3, h7, filterMap_get?_sub S.allocations
      (S.allocations.filter (fun p => p.2.NetworkID == net)) hsub]
  | listAudit k =>
    obtain ⟨h1, h2, h3, h4, h5, h6, h7⟩ := hrel
    simp only [opValid, decide_eq_true_eq] at hv
    have hpo : pebbleOp P (.listAudit k) =
        (.audits (((Kv.values P.audit).drop
          ((Kv.values P.audit).length - k.toNat)).reverse), P) := by
      simp only [pebbleOp, pebble_listAudit_pos k hv P]
    have hro : raftOp S (.listAudit k) =
        (.audits ((S.audit.drop (S.audit.length - k.toNat)).reverse), S) := by
      simp only [raftOp, raft_listAudit_pos k hv S]
    have hv5 : Kv.values P.audit = S.audit := by
      rw [h5]
      show List.map (fun p => p.2) (S.audit.map (fun e => (auditKey e, e))) = S.audit
      rw [List.map_map, show ((fun p : String × AuditEntry => p.2) ∘
        fun e : AuditEntry => (auditKey e, e)) = id from rfl, List.map_id]
    rw [hpo, hro, hv5]
    exact ⟨rfl, h1, h2, h3, h4, h5, h6, h7⟩

theorem storeRel_run : ∀ (ops : List Op) (P : PebbleState) (S : RSMState),
    StoreRel P S → seqValid S ops = true →
    (pebbleRun P ops).1 = (raftRun S ops).1 ∧
    StoreRel (pebbleRun P ops).2 (raftRun S ops).2 := by
  intro ops
  induction ops with
  | nil =>
    intro P S hrel _
    exact ⟨rfl, hrel⟩
  | cons op rest ih =>
    intro P S hrel hv
    simp only [seqValid, Bool.and_eq_true] at hv
    obtain ⟨hs, hrel'⟩ := storeRel_step P S op hrel hv.1
    obtain ⟨hres, hfin⟩ := ih (pebbleOp P op).2 (raftOp S op).2 hrel' hv.2
    constructor
    · show (pebbleOp P op).1 :: (pebbleRun (pebbleOp P op).2 rest).1 =
        (raftOp S op).1 :: (raftRun (raftOp S op).2 rest).1
      rw [hs, hres]
    · exact hfin

theorem storeRel_init (cid nid : Nat) :
    StoreRel emptyPebble (newIPAMStateMachine cid nid) :=
  ⟨rfl, rfl, rfl, rfl, rfl, List.nodup_nil, fun _ => rfl⟩

/-- C1 counterexample: the two backends do not return the same results on
all call sequences.  `get_network` of an absent id errors with
`ErrNetworkNotFound` on the Pebble store but returns a nil record with a
nil error on the Raft store (the typed-nil result of `Lookup` defeats the
wrapper's `result == nil` test). -/
theorem c1_counterexample :
    (pebbleRun emptyPebble [.getNetwork "missing"]).1 = [.err .networkNotFound] ∧
    (raftRun (newIPAMStateMachine 1 1) [.getNetwork "missing"]).1 =
      [.network none] ∧
    (pebbleRun emptyPebble [.getNetwork "missing"]).1 ≠
      (raftRun (newIPAMStateMachine 1 1) [.getNetwork "missing"]).1 := by
  refine ⟨rfl, rfl, by decide⟩

/-- C1 amended: along any operation sequence in which every point lookup
and delete targets a present key, index lookups are either true misses or
point at live records, a re-saved allocation keeps its `NetworkID`, audit
appends stay under the 10000 bound with lexicographically increasing
keys, and audit list limits are positive, the Pebble-backed store and the
Raft-backed store produce the same result at every step (list-valued
results up to reordering, which the insertion-ordered embedding realises
as equality).  Outside those provisos the backends genuinely diverge
(absent-id lookups and deletes, audit overflow, stale index entries). -/
theorem c1_amended (ops : List Op) (cid nid : Nat)
    (hv : seqValid (newIPAMStateMachine cid nid) ops = true) :
    List.Forall₂ resRel (pebbleRun emptyPebble ops).1
      (raftRun (newIPAMStateMachine cid nid) ops).1 := by
  obtain ⟨heq, _⟩ := storeRel_run ops emptyPebble (newIPAMStateMachine cid nid)
    (storeRel_init cid nid) hv
  rw [heq]
  exact List.forall₂_same.mpr (fun r _ => resRel_refl r)

/-- Witness for `c1_amended`: a fifteen-operation sequence exercising
every operation kind, valid at every step. -/
theorem c1_witness :
    List.Forall₂ resRel (pebbleRun emptyPebble c1WitOps).1
      (raftRun (newIPAMStateMachine 1 1) c1WitOps).1 :=
  c1_amended c1WitOps 1 1 (by decide)
